import Mathlib

/-!
# Yamaha YM7101 PSG (Nuked MD) : shallow embedding of `ym7101psg.c`

The chip record `psg_t` is a plain structure of naturals.  A `Bit8u` field holds a value below
`2^8`, a `Bit16u` field a value below `2^16`; every place where the C code truncates a result to
the width of the destination is written with an explicit `% 2^w`.

The four-element arrays of the record are `Arr4` values.  An access through an index computed
from the state (`volume[latch>>1]`, `freq[channel]`, `counter[cycle]`, the table lookups of
`PSG_GetSample`) is undefined in C when the index is outside the array; the embedding returns
`none` there, so the functions that perform such an access return an `Option`.

The attenuation table `psg_vol` holds its decimal entries as exact rationals: sums of table
entries are exact sums, the rounding of the C `float` type is not part of the model.
-/

namespace YM7101

/-- A C array of four machine integers (`Bit8u x[4]` or `Bit16u x[4]`). -/
structure Arr4 where
  e0 : Nat
  e1 : Nat
  e2 : Nat
  e3 : Nat
  deriving DecidableEq, Repr

/-- Read of `a[i]`; `none` when `i` is outside the array. -/
def Arr4.get? (a : Arr4) (i : Nat) : Option Nat :=
  match i with
  | 0 => some a.e0
  | 1 => some a.e1
  | 2 => some a.e2
  | 3 => some a.e3
  | _ => none

/-- Store `a[i] = v`; `none` when `i` is outside the array. -/
def Arr4.set? (a : Arr4) (i : Nat) (v : Nat) : Option Arr4 :=
  match i with
  | 0 => some { a with e0 := v }
  | 1 => some { a with e1 := v }
  | 2 => some { a with e2 := v }
  | 3 => some { a with e3 := v }
  | _ => none

/-- The record `psg_t` of `ym7101psg.h`, field for field. -/
structure psg_t where
  latch : Nat
  volume : Arr4
  output : Arr4
  freq : Arr4
  counter : Arr4
  sign : Nat
  noise_data : Nat
  noise_reset : Nat
  noise_update : Nat
  noise_type : Nat
  noise : Nat
  inverse : Nat
  cycle : Nat
  debug : Nat
  deriving DecidableEq, Repr

/-- Every element of the array is below `b`. -/
def Arr4.below (a : Arr4) (b : Nat) : Prop :=
  a.e0 < b ∧ a.e1 < b ∧ a.e2 < b ∧ a.e3 < b

instance (a : Arr4) (b : Nat) : Decidable (a.below b) := by
  unfold Arr4.below
  infer_instance

/-- The values a `psg_t` object can hold in C: each field within the range of its type
(`Bit8u` below 256, `Bit16u` below 65536). -/
def psg_t.inRange (s : psg_t) : Prop :=
  s.latch < 256 ∧ s.volume.below 256 ∧ s.output.below 256 ∧ s.freq.below 65536 ∧
  s.counter.below 65536 ∧ s.sign < 256 ∧ s.noise_data < 256 ∧ s.noise_reset < 256 ∧
  s.noise_update < 256 ∧ s.noise_type < 256 ∧ s.noise < 65536 ∧ s.inverse < 256 ∧
  s.cycle < 256 ∧ s.debug < 256

instance (s : psg_t) : Decidable s.inRange := by
  unfold psg_t.inRange
  infer_instance

/-- The table `psg_vol[17]`, entries as exact decimals. -/
def psg_vol : List ℚ :=
  [1.0, 0.772, 0.622, 0.485, 0.382, 0.29, 0.229, 0.174, 0.132, 0.096, 0.072, 0.051, 0.034,
   0.019, 0.009, 0.0, -1.059]

/-- The table `psg_debug_chan[4]`. -/
def psg_debug_chan : List Nat := [0, 2, 1, 3]

/-- Embedding of `PSG_Reset`: the twenty-six assignments of the C function, in order. -/
def PSG_Reset (chip : psg_t) : psg_t :=
  let chip : psg_t := { chip with latch := 7 }
  let chip : psg_t := { chip with volume := { chip.volume with e0 := 0x0f } }
  let chip : psg_t := { chip with volume := { chip.volume with e1 := 0x0f } }
  let chip : psg_t := { chip with volume := { chip.volume with e2 := 0x0f } }
  let chip : psg_t := { chip with volume := { chip.volume with e3 := 0x0f } }
  let chip : psg_t := { chip with output := { chip.output with e0 := 0x0f } }
  let chip : psg_t := { chip with output := { chip.output with e1 := 0x0f } }
  let chip : psg_t := { chip with output := { chip.output with e2 := 0x0f } }
  let chip : psg_t := { chip with output := { chip.output with e3 := 0x0f } }
  let chip : psg_t := { chip with freq := { chip.freq with e0 := 0 } }
  let chip : psg_t := { chip with freq := { chip.freq with e1 := 0 } }
  let chip : psg_t := { chip with freq := { chip.freq with e2 := 0 } }
  let chip : psg_t := { chip with freq := { chip.freq with e3 := 0x10 } }
  let chip : psg_t := { chip with counter := { chip.counter with e0 := 0 } }
  let chip : psg_t := { chip with counter := { chip.counter with e1 := 0 } }
  let chip : psg_t := { chip with counter := { chip.counter with e2 := 0 } }
  let chip : psg_t := { chip with counter := { chip.counter with e3 := 0 } }
  let chip : psg_t := { chip with noise_data := 0 }
  let chip : psg_t := { chip with noise := 0 }
  let chip : psg_t := { chip with noise_reset := 0 }
  let chip : psg_t := { chip with noise_update := 0 }
  let chip : psg_t := { chip with noise_type := 0 }
  let chip : psg_t := { chip with sign := 0 }
  let chip : psg_t := { chip with inverse := 0x0f }
  let chip : psg_t := { chip with cycle := 0 }
  ({ chip with debug := 0 } : psg_t)

/-- Embedding of `PSG_Write`; `data` is the `Bit8u` argument.  The result is `none` when
`latch>>1` is not an index of `volume` or `freq` (only possible when the incoming `latch`
exceeds 7 and `data` has bit 7 clear). -/
def PSG_Write (chip : psg_t) (data : Nat) : Option psg_t :=
  let chip : psg_t :=
    if data &&& 0x80 ≠ 0 then { chip with latch := (data >>> 4) &&& 0x07 } else chip
  -- Update volume
  if chip.latch &&& 0x01 ≠ 0 then
    (chip.volume.set? (chip.latch >>> 1) (data &&& 0x0f)).map fun v => { chip with volume := v }
  else
    let channel := chip.latch >>> 1
    if channel ≠ 3 then
      -- Square wave
      if data &&& 0x80 ≠ 0 then do
        let f ← chip.freq.get? channel
        let f := f &&& 0x3f0
        let f := f ||| (data &&& 0x0f)
        let fr ← chip.freq.set? channel f
        some { chip with freq := fr }
      else do
        let f ← chip.freq.get? channel
        let f := f &&& 0x0f
        let f := f ||| ((data <<< 4) &&& 0x3f0)
        let fr ← chip.freq.set? channel f
        some { chip with freq := fr }
    else
      -- Noise
      let freq := data &&& 0x03
      let chip : psg_t := { chip with noise_reset := chip.noise_reset ||| 0x01 }
      let chip : psg_t := { chip with noise_type := 0 }
      let chip : psg_t := { chip with noise_data := data &&& 0x07 }
      let chip : psg_t :=
        if freq ≠ 3 then
          { chip with freq := { chip.freq with e3 := 0x10 <<< freq } }
        else
          let chip : psg_t := { chip with freq := { chip.freq with e3 := 0 } }
          { chip with noise_type := chip.noise_type ||| 0x01 }
      some { chip with noise_type := chip.noise_type ||| ((data >>> 1) &&& 0x02) }

/-- The value `latch` holds once the first statement of `PSG_Write` has run: the selector in
bits 6-4 of `data` when bit 7 is set, the stored latch otherwise. -/
def latchAfter (chip : psg_t) (data : Nat) : Nat :=
  if data &&& 0x80 ≠ 0 then (data >>> 4) &&& 0x07 else chip.latch

/-- A zero-filled `psg_t` object, as a host allocates it before the first `PSG_Reset`. -/
def psg_t.zero : psg_t :=
  ⟨0, ⟨0, 0, 0, 0⟩, ⟨0, 0, 0, 0⟩, ⟨0, 0, 0, 0⟩, ⟨0, 0, 0, 0⟩, 0, 0, 0, 0, 0, 0, 0, 0, 0⟩

/-- A state in the middle of playback: reset values except volumes 1, 2, 3, 4, channels 0 and 2
in the high half of their square wave (`sign = 0b0101`) and bit 14 of the noise register set. -/
def psg_t.playing : psg_t :=
  { PSG_Reset psg_t.zero with volume := ⟨1, 2, 3, 4⟩, sign := 5, noise := 0x4000 }

/-- Embedding of `PSG_UpdateSample`; the loop over the three tone channels is unrolled. -/
def PSG_UpdateSample (chip : psg_t) : psg_t :=
  if chip.debug &&& 0x01 ≠ 0 then
    let chip : psg_t := { chip with output := { chip.output with e0 := chip.volume.e0 } }
    let chip : psg_t := { chip with output := { chip.output with e1 := chip.volume.e1 } }
    let chip : psg_t := { chip with output := { chip.output with e2 := chip.volume.e2 } }
    { chip with output := { chip.output with e3 := chip.volume.e3 } }
  else
    -- Update digital output
    let chip : psg_t :=
      if (chip.sign >>> 0) &&& 0x01 ≠ 0 then
        { chip with output := { chip.output with e0 := chip.volume.e0 } }
      else { chip with output := { chip.output with e0 := 0x0f } }
    let chip : psg_t :=
      if (chip.sign >>> 1) &&& 0x01 ≠ 0 then
        { chip with output := { chip.output with e1 := chip.volume.e1 } }
      else { chip with output := { chip.output with e1 := 0x0f } }
    let chip : psg_t :=
      if (chip.sign >>> 2) &&& 0x01 ≠ 0 then
        { chip with output := { chip.output with e2 := chip.volume.e2 } }
      else { chip with output := { chip.output with e2 := 0x0f } }
    if chip.noise &&& (0x01 <<< 14) ≠ 0 then
      { chip with output := { chip.output with e3 := chip.volume.e3 } }
    else { chip with output := { chip.output with e3 := 0x0f } }

/-- Embedding of `PSG_Read`: returns the `Bit16u` sample and the updated record.  Each
`sample |= ...` stores into a 16-bit variable, hence the `% 65536`. -/
def PSG_Read (chip : psg_t) : Nat × psg_t :=
  let sample := 0
  let chip : psg_t := PSG_UpdateSample chip
  let sample := (sample ||| (chip.output.e0 <<< (4 * (3 - 0)))) % 65536
  let sample := (sample ||| (chip.output.e1 <<< (4 * (3 - 1)))) % 65536
  let sample := (sample ||| (chip.output.e2 <<< (4 * (3 - 2)))) % 65536
  let sample := (sample ||| (chip.output.e3 <<< (4 * (3 - 3)))) % 65536
  (sample, chip)

/-- Embedding of `PSG_SetDebugBits`; `data` is the `Bit16u` argument. -/
def PSG_SetDebugBits (chip : psg_t) (data : Nat) : psg_t :=
  { chip with debug := (data >>> 9) &&& 0x07 }

/-- Embedding of `PSG_GetSample`: returns the value stored to `*sample` and the updated record;
`none` when a table index is outside its table. -/
def PSG_GetSample (chip : psg_t) : Option (ℚ × psg_t) :=
  let chip : psg_t := PSG_UpdateSample chip
  if chip.debug &&& 0x01 ≠ 0 then do
    let ref ← psg_vol[16]?
    let tsample := 3 * ref
    let ch ← psg_debug_chan[chip.debug >>> 1]?
    let o ← chip.output.get? ch
    let v ← psg_vol[o]?
    let tsample := tsample + v
    some (tsample, chip)
  else do
    let tsample : ℚ := 0.0
    let v0 ← psg_vol[chip.output.e0]?
    let tsample := tsample + v0
    let v1 ← psg_vol[chip.output.e1]?
    let tsample := tsample + v1
    let v2 ← psg_vol[chip.output.e2]?
    let tsample := tsample + v2
    let v3 ← psg_vol[chip.output.e3]?
    let tsample := tsample + v3
    some (tsample, chip)

/-- Embedding of `PSG_Cycle`: `none` when `cycle` is not an index of `counter` and `freq`. -/
def PSG_Cycle (chip : psg_t) : Option psg_t :=
  -- Update noise
  let chip : psg_t := { chip with noise_update := (chip.noise_update <<< 1) % 256 }
  let chip : psg_t := { chip with noise_update :=
    chip.noise_update ||| ((chip.sign >>> (3 - (chip.noise_type &&& 0x01))) &&& 0x01) }
  let chip : psg_t :=
    if chip.noise_update &&& 0x03 = 0x01 then
      let noise_bit := 0
      let noise_bit := if chip.noise &&& 0x7fff = 0 then 1 else noise_bit
      let noise_bit :=
        if chip.noise_type &&& 0x02 ≠ 0 then
          noise_bit ||| (((chip.noise >>> 15) ^^^ (chip.noise >>> 12)) &&& 0x01)
        else noise_bit
      { chip with noise := ((chip.noise <<< 1) ||| noise_bit) % 65536 }
    else chip
  let chip : psg_t :=
    if chip.noise_reset &&& 0x02 ≠ 0 then { chip with noise_data := 0 } else chip
  -- Update sign
  let chip : psg_t :=
    if chip.cycle = 0 then
      let chip : psg_t := { chip with sign := chip.sign ^^^ chip.inverse }
      { chip with inverse := 0 }
    else chip
  -- Update counter
  do
    let counter ← chip.counter.get? chip.cycle
    let fr ← chip.freq.get? chip.cycle
    let (counter, chip) :=
      if counter ≥ fr then
        (0, { chip with inverse := (chip.inverse ||| (1 <<< chip.cycle)) % 256 })
      else (counter, chip)
    let ctr ← chip.counter.set? chip.cycle ((counter + 1) % 65536)
    let chip : psg_t := { chip with counter := ctr }
    let chip : psg_t := { chip with cycle := (chip.cycle + 1) &&& 0x03 }
    some { chip with noise_reset := (chip.noise_reset <<< 1) % 256 }

/-- The value `noise_update` holds after the first two statements of `PSG_Cycle`: the 8-bit
history shifted left by one with the tapped sign bit appended. -/
def noiseUpdateNext (chip : psg_t) : Nat :=
  ((chip.noise_update <<< 1) % 256) |||
    ((chip.sign >>> (3 - (chip.noise_type &&& 0x01))) &&& 0x01)

/-- The body of the `if ((chip->noise_update & 0x03) == 0x01)` block of `PSG_Cycle`: the value
stored to the 16-bit `noise` on a qualifying clock. -/
def noiseShift (noise_type noise : Nat) : Nat :=
  let noise_bit := 0
  let noise_bit := if noise &&& 0x7fff = 0 then 1 else noise_bit
  let noise_bit :=
    if noise_type &&& 0x02 ≠ 0 then
      noise_bit ||| (((noise >>> 15) ^^^ (noise >>> 12)) &&& 0x01)
    else noise_bit
  ((noise <<< 1) ||| noise_bit) % 65536

/-- The test `counter >= chip->freq[chip->cycle]` of `PSG_Cycle` succeeds and the channel it is
made for is `c`: the call made from `chip` takes the overflow branch for channel `c`. -/
def overflowsAt (c : Nat) (chip : psg_t) : Prop :=
  chip.cycle = c ∧
    ∃ counter fr, chip.counter.get? c = some counter ∧ chip.freq.get? c = some fr ∧ counter ≥ fr

/-- Consecutive `PSG_Cycle` calls, `n` of them, with nothing in between. -/
def PSG_Cycles : Nat → psg_t → Option psg_t
  | 0, chip => some chip
  | n + 1, chip => (PSG_Cycles n chip).bind PSG_Cycle

/-- The state reached from reset by the noise configuration byte `0xE3` (period code 3, so
`freq[3] = 0`) and three `PSG_Cycle` calls: the round is at channel 3, whose counter has reached
its period, and no flip is pending for it. -/
def psg_t.atChannel3 : psg_t :=
  { latch := 6, volume := ⟨15, 15, 15, 15⟩, output := ⟨15, 15, 15, 15⟩, freq := ⟨0, 0, 0, 0⟩,
    counter := ⟨1, 1, 1, 0⟩, sign := 15, noise_data := 0, noise_reset := 8, noise_update := 3,
    noise_type := 1, noise := 1, inverse := 7, cycle := 3, debug := 0 }

/-- The operations a host applies to a chip record after `PSG_Reset`. -/
inductive Op where
  | write (data : Nat)
  | cycle
  | read
  | getSample
  | setDebugBits (data : Nat)
  deriving Repr

/-- The record an operation leaves; `none` when the operation indexes outside an array. -/
def Op.apply (chip : psg_t) : Op → Option psg_t
  | Op.write data => PSG_Write chip data
  | Op.cycle => PSG_Cycle chip
  | Op.read => some (PSG_Read chip).2
  | Op.getSample => (PSG_GetSample chip).map Prod.snd
  | Op.setDebugBits data => some (PSG_SetDebugBits chip data)

/-- A finite sequence of operations, applied first to last. -/
def run (chip : psg_t) : List Op → Option psg_t
  | [] => some chip
  | op :: ops => (op.apply chip).bind fun chip' => run chip' ops

/-- The bounds every record reachable from `PSG_Reset` satisfies. -/
def psg_t.invariant (s : psg_t) : Prop :=
  s.latch ≤ 7 ∧ s.cycle ≤ 3 ∧ s.debug ≤ 7 ∧ s.volume.below 16 ∧ s.output.below 16 ∧
  s.sign ≤ 15 ∧ s.inverse ≤ 15 ∧
  (s.freq.e0 ≤ 0x3ff ∧ s.freq.e1 ≤ 0x3ff ∧ s.freq.e2 ≤ 0x3ff) ∧
  s.counter.below 0x400 ∧
  (s.freq.e3 = 0 ∨ s.freq.e3 = 0x10 ∨ s.freq.e3 = 0x20 ∨ s.freq.e3 = 0x40) ∧
  (s.freq.e3 = 0 ↔ s.noise_type.testBit 0 = true)

instance (s : psg_t) : Decidable s.invariant := by
  unfold psg_t.invariant
  infer_instance

/-- The call made from `chip` is a qualifying noise clock: the test
`(chip->noise_update & 0x03) == 0x01` of `PSG_Cycle` succeeds. -/
def noiseClocked (chip : psg_t) : Prop :=
  noiseUpdateNext chip &&& 0x03 = 0x01

instance (chip : psg_t) : Decidable (noiseClocked chip) := by
  unfold noiseClocked
  infer_instance

/-- The number of qualifying noise clocks among the first `n` consecutive `PSG_Cycle` calls. -/
def noiseClockCount : Nat → psg_t → Nat
  | 0, _ => 0
  | n + 1, chip =>
    noiseClockCount n chip +
      (match PSG_Cycles n chip with
        | some c => if noiseClocked c then 1 else 0
        | none => 0)

/-- The register value a one-hot rotation of 16 positions holds after `q` clocks when it starts
from 0: nothing yet for `q = 0`, then the single bit `(q - 1) mod 16`. -/
def oneHotAfter (q : Nat) : Nat :=
  if q = 0 then 0 else 1 <<< ((q - 1) % 16)

/-! ## Bit-level facts used by the register interface -/

set_option maxRecDepth 100000

theorem and_0x3f0_and_0x0f (x : Nat) : (x &&& 0x3f0) &&& 0x0f = 0 := by
  rw [Nat.and_assoc]
  exact Nat.and_zero x

theorem and_0x0f_of_lt {q : Nat} (hq : q < 16) : q &&& 0x0f = q :=
  Nat.and_pow_two_sub_one_of_lt_two_pow (n := 4) hq

theorem and_0x0f_lt (p : Nat) : p &&& 0x0f < 16 :=
  Nat.and_lt_two_pow p (n := 4) (by decide)

/-- The low nibble survives a latch-byte frequency write whatever the register held. -/
theorem low_nibble_after_latch_write (x : Nat) {q : Nat} (hq : q < 16) :
    ((x &&& 0x3f0) ||| q) &&& 0x0f = q := by
  rw [Nat.and_distrib_right, and_0x3f0_and_0x0f, Nat.zero_or, and_0x0f_of_lt hq]

/-- Decoding of a latch byte `0x80 | (c << 5) | q` for a tone channel `c` and a nibble `q`. -/
theorem latch_byte_decode {c q : Nat} (hc : c < 3) (hq : q < 16) :
    (0x80 ||| (c <<< 5) ||| q) &&& 0x80 ≠ 0 ∧
    ((0x80 ||| (c <<< 5) ||| q) >>> 4) &&& 0x07 = 2 * c ∧
    (0x80 ||| (c <<< 5) ||| q) &&& 0x0f = q := by
  interval_cases c <;> interval_cases q <;> decide

/-- Decoding of the data byte `(p >> 4) & 0x3f` of a 10-bit period `p`. -/
theorem data_byte_decode : ∀ p, p < 1024 →
    ((p >>> 4) &&& 0x3f) &&& 0x80 = 0 ∧
    (p &&& 0x0f) ||| ((((p >>> 4) &&& 0x3f) <<< 4) &&& 0x3f0) = p ∧
    (((p >>> 4) &&& 0x3f) <<< 4) &&& 0x3f0 = p &&& 0x3f0 := by
  decide

/-! ## Reset -/

/-- C1: for every chip state `s`, `PSG_Reset s` is one fixed record (latch 7, volumes and outputs
15, frequencies 0, 0, 0, 0x10, counters 0, noise fields 0, sign 0, inverse 0x0f, cycle 0,
debug 0), so the result does not depend on `s` and resetting twice is resetting once. -/
theorem PSG_Reset_fixed (s : psg_t) :
    PSG_Reset s =
      { latch := 7, volume := ⟨15, 15, 15, 15⟩, output := ⟨15, 15, 15, 15⟩,
        freq := ⟨0, 0, 0, 0x10⟩, counter := ⟨0, 0, 0, 0⟩, sign := 0, noise_data := 0,
        noise_reset := 0, noise_update := 0, noise_type := 0, noise := 0, inverse := 0x0f,
        cycle := 0, debug := 0 } ∧
    (∀ t : psg_t, PSG_Reset t = PSG_Reset s) ∧
    PSG_Reset (PSG_Reset s) = PSG_Reset s :=
  ⟨rfl, fun _ => rfl, rfl⟩

/-- C2: for every chip state `s`, `PSG_Read` right after `PSG_Reset` returns `0xFFFF`, and the
four volumes are 15 before and after that read. -/
theorem PSG_Read_after_Reset (s : psg_t) :
    (PSG_Read (PSG_Reset s)).1 = 0xFFFF ∧
    (PSG_Reset s).volume = ⟨15, 15, 15, 15⟩ ∧
    (PSG_Read (PSG_Reset s)).2.volume = ⟨15, 15, 15, 15⟩ := by
  have h : PSG_Reset s = PSG_Reset psg_t.zero := rfl
  rw [h]
  decide

/-! ## Register writes -/

/-- C3: for every chip state, tone channel `c < 3` and 10-bit period `p`, the latch byte
`0x80 | (c << 5) | (p & 0x0f)` followed by the data byte `(p >> 4) & 0x3f` are both accepted and
leave `freq[c] = p`, whatever `freq[c]` and `latch` held before; the `freq` entries of the other
three channels are unchanged. -/
theorem PSG_Write_freq_roundtrip (s : psg_t) (c p : Nat) (hc : c < 3) (hp : p < 1024) :
    ∃ s1 s2, PSG_Write s (0x80 ||| (c <<< 5) ||| (p &&& 0x0f)) = some s1 ∧
      PSG_Write s1 ((p >>> 4) &&& 0x3f) = some s2 ∧
      s2.freq.get? c = some p ∧
      ∀ j, j ≠ c → s2.freq.get? j = s.freq.get? j := by
  obtain ⟨h1, h2, h3⟩ := latch_byte_decode hc (and_0x0f_lt p)
  obtain ⟨h4, h5, -⟩ := data_byte_decode p hp
  have h6 := fun x => low_nibble_after_latch_write x (and_0x0f_lt p)
  generalize 0x80 ||| (c <<< 5) ||| (p &&& 0x0f) = d1 at *
  generalize (p >>> 4) &&& 0x3f = d2 at *
  interval_cases c
  all_goals
    simp [PSG_Write, h1, h2, h3, h4, h5, h6, Arr4.get?, Arr4.set?]
    intro j hj
    rcases j with _ | _ | _ | _ | j <;> simp at hj ⊢

/-- The witness of C3: channel 1 and period `0x2a5` on the reset state. -/
theorem PSG_Write_freq_roundtrip_witness :
    (1 < 3 ∧ 0x2a5 < 1024) ∧
    ∃ s1 s2,
      PSG_Write (PSG_Reset psg_t.zero) (0x80 ||| (1 <<< 5) ||| (0x2a5 &&& 0x0f)) = some s1 ∧
      PSG_Write s1 ((0x2a5 >>> 4) &&& 0x3f) = some s2 ∧
      s2.freq.get? 1 = some 0x2a5 ∧
      ∀ j, j ≠ 1 → s2.freq.get? j = (PSG_Reset psg_t.zero).freq.get? j :=
  ⟨by decide, PSG_Write_freq_roundtrip _ 1 0x2a5 (by decide) (by decide)⟩

theorem and_0x0f_and_0x3f0 (p : Nat) : (p &&& 0x0f) &&& 0x3f0 = 0 := by
  rw [Nat.and_assoc]
  exact Nat.and_zero p

/-- The upper six bits after a data-byte frequency write are those of the byte, whatever the
register held. -/
theorem high_bits_after_data_write (x : Nat) {d y : Nat} (h : (d <<< 4) &&& 0x3f0 = y) :
    ((x &&& 0x0f) ||| ((d <<< 4) &&& 0x3f0)) &&& 0x3f0 = y := by
  rw [Nat.and_distrib_right, and_0x0f_and_0x3f0, Nat.zero_or, Nat.and_assoc, Nat.and_self, h]

theorem split_period : ∀ p, p < 1024 → (p &&& 0x3f0) ||| (p &&& 0x0f) = p := by
  decide

/-- A register whose low nibble is replaced by that of `p` equals `p` exactly when its upper six
bits already were those of `p`. -/
theorem latch_write_eq_iff (f : Nat) {p : Nat} (hp : p < 1024) :
    (f &&& 0x3f0) ||| (p &&& 0x0f) = p ↔ f &&& 0x3f0 = p &&& 0x3f0 := by
  constructor
  · intro h
    have h2 := congrArg (fun x => x &&& 0x3f0) h
    simp only [Nat.and_distrib_right, and_0x0f_and_0x3f0, Nat.or_zero] at h2
    rw [Nat.and_assoc, Nat.and_self] at h2
    exact h2
  · intro h
    rw [h]
    exact split_period p hp

/-- C4, as amended: for every chip state with `latch <= 7`, tone channel `c < 3` and 10-bit
period `p`, the data byte `(p >> 4) & 0x3f` followed by the latch byte
`0x80 | (c << 5) | (p & 0x0f)` are both accepted and leave `freq[c] = p` when the stored latch
already was `2c`, and `freq[c] = (f & 0x3f0) | (p & 0x0f)` for the old value `f` of `freq[c]`
otherwise; so the result differs from `p` exactly when the stored latch is not `2c` and the upper
six bits of the old `freq[c]` differ from those of `p`. -/
theorem PSG_Write_reversed (s : psg_t) (c p : Nat) (hc : c < 3) (hp : p < 1024)
    (hl : s.latch ≤ 7) :
    ∃ s1 s2 f, PSG_Write s ((p >>> 4) &&& 0x3f) = some s1 ∧
      PSG_Write s1 (0x80 ||| (c <<< 5) ||| (p &&& 0x0f)) = some s2 ∧
      s.freq.get? c = some f ∧
      s2.freq.get? c = some (if s.latch = 2 * c then p else (f &&& 0x3f0) ||| (p &&& 0x0f)) ∧
      (s2.freq.get? c ≠ some p ↔ (s.latch ≠ 2 * c ∧ f &&& 0x3f0 ≠ p &&& 0x3f0)) := by
  obtain ⟨h1, h2, h3⟩ := latch_byte_decode hc (and_0x0f_lt p)
  obtain ⟨h4, h5, h8⟩ := data_byte_decode p hp
  have h6 := fun x => low_nibble_after_latch_write x (and_0x0f_lt p)
  have h7 := fun f => latch_write_eq_iff f hp
  have h9 := fun x => high_bits_after_data_write x h8
  generalize 0x80 ||| (c <<< 5) ||| (p &&& 0x0f) = d1 at *
  generalize (p >>> 4) &&& 0x3f = d2 at *
  obtain ⟨latch, volume, output, freq, counter, sign, noise_data, noise_reset, noise_update,
    noise_type, noise, inverse, cycle, debug⟩ := s
  simp only at hl
  interval_cases latch <;> interval_cases c <;>
    simp [PSG_Write, h1, h2, h3, h4, h5, h6, h7, h9, Arr4.get?, Arr4.set?] <;>
    split_ifs <;> simp

/-- The witness of C4 as amended: the reset state (latch 7, `freq[1] = 0`), channel 1, period
`0x2a5`. -/
theorem PSG_Write_reversed_witness :
    (1 < 3 ∧ 0x2a5 < 1024 ∧ (PSG_Reset psg_t.zero).latch ≤ 7) ∧
    ∃ s1 s2 f, PSG_Write (PSG_Reset psg_t.zero) ((0x2a5 >>> 4) &&& 0x3f) = some s1 ∧
      PSG_Write s1 (0x80 ||| (1 <<< 5) ||| (0x2a5 &&& 0x0f)) = some s2 ∧
      (PSG_Reset psg_t.zero).freq.get? 1 = some f ∧
      s2.freq.get? 1 = some (if (PSG_Reset psg_t.zero).latch = 2 * 1 then 0x2a5
        else (f &&& 0x3f0) ||| (0x2a5 &&& 0x0f)) ∧
      (s2.freq.get? 1 ≠ some 0x2a5 ↔
        ((PSG_Reset psg_t.zero).latch ≠ 2 * 1 ∧ f &&& 0x3f0 ≠ 0x2a5 &&& 0x3f0)) :=
  ⟨by decide, PSG_Write_reversed (PSG_Reset psg_t.zero) 1 0x2a5 (by decide) (by decide)
    (by decide)⟩

/-- C4 as stated fails.  On the reset state, channel 0 and period 5: the data byte `0x00` is a
volume write (latch 7), the latch byte `0x85` then stores `freq[0] = 5`, the very period.  On the
state reached from reset by the byte `0x80` (latch 0), channel 0 and period `0x2a5`: the data
byte `0x2a` stores the upper six bits, the latch byte `0x85` the low nibble, and
`freq[0] = 0x2a5`. -/
theorem PSG_Write_reversed_counterexample :
    (PSG_Reset psg_t.zero).inRange ∧
    (∃ s1 s2, PSG_Write (PSG_Reset psg_t.zero) ((5 >>> 4) &&& 0x3f) = some s1 ∧
      PSG_Write s1 (0x80 ||| (0 <<< 5) ||| (5 &&& 0x0f)) = some s2 ∧
      s2.freq.get? 0 = some 5) ∧
    (∃ s0 s1 s2, PSG_Write (PSG_Reset psg_t.zero) 0x80 = some s0 ∧
      PSG_Write s0 ((0x2a5 >>> 4) &&& 0x3f) = some s1 ∧
      PSG_Write s1 (0x80 ||| (0 <<< 5) ||| (0x2a5 &&& 0x0f)) = some s2 ∧
      s2.freq.get? 0 = some 0x2a5) :=
  ⟨by decide, ⟨_, _, rfl, rfl, rfl⟩, ⟨_, _, _, rfl, rfl, rfl, rfl⟩⟩

/-- C5: for every chip state with `latch <= 7` and every byte `d`, with `L` the selector in bits
6-4 of `d` when bit 7 is set and the stored latch otherwise: if `L` is odd, `PSG_Write` accepts
the byte, sets `latch = L` and `volume[L >> 1] = d & 0x0f` (also when bit 7 of `d` is clear), and
leaves the other three volumes and every other field of the record unchanged. -/
theorem PSG_Write_volume (s : psg_t) (d : Nat) (hl : s.latch ≤ 7)
    (hodd : latchAfter s d % 2 = 1) :
    ∃ v, PSG_Write s d = some { s with latch := latchAfter s d, volume := v } ∧
      v.get? (latchAfter s d >>> 1) = some (d &&& 0x0f) ∧
      ∀ j, j ≠ latchAfter s d >>> 1 → v.get? j = s.volume.get? j := by
  have hL : latchAfter s d ≤ 7 := by
    unfold latchAfter
    split_ifs
    · exact Nat.and_le_right
    · exact hl
  have hw : PSG_Write s d =
      (s.volume.set? (latchAfter s d >>> 1) (d &&& 0x0f)).map
        fun v => { s with latch := latchAfter s d, volume := v } := by
    unfold latchAfter at hodd ⊢
    unfold PSG_Write
    by_cases h80 : d &&& 0x80 = 0
    · simp only [h80, ne_eq, not_true_eq_false, if_false] at hodd ⊢
      simp [hodd]
    · simp only [h80, ne_eq, not_false_eq_true, if_true] at hodd ⊢
      simp [hodd]
  rw [hw]
  generalize latchAfter s d = L at *
  interval_cases L <;> simp at hodd <;> simp [Arr4.set?, Arr4.get?] <;>
    (intro j hj; rcases j with _ | _ | _ | _ | j <;> simp at hj ⊢)

/-- The witness of C5: the continuation byte `0x05` (bit 7 clear) on the reset state, whose latch
7 selects the volume of channel 3. -/
theorem PSG_Write_volume_witness :
    ((PSG_Reset psg_t.zero).latch ≤ 7 ∧ latchAfter (PSG_Reset psg_t.zero) 0x05 % 2 = 1) ∧
    ∃ v, PSG_Write (PSG_Reset psg_t.zero) 0x05 =
        some { PSG_Reset psg_t.zero with
          latch := latchAfter (PSG_Reset psg_t.zero) 0x05, volume := v } ∧
      v.get? (latchAfter (PSG_Reset psg_t.zero) 0x05 >>> 1) = some (0x05 &&& 0x0f) ∧
      ∀ j, j ≠ latchAfter (PSG_Reset psg_t.zero) 0x05 >>> 1 →
        v.get? j = (PSG_Reset psg_t.zero).volume.get? j :=
  ⟨by decide, PSG_Write_volume (PSG_Reset psg_t.zero) 0x05 (by decide) (by decide)⟩

/-- A single-bit mask test `x & (1 << i)` reads bit `i`. -/
theorem and_two_pow_ne_zero_iff (x i : Nat) : x &&& 2 ^ i ≠ 0 ↔ x.testBit i = true := by
  rw [Nat.and_two_pow]
  cases x.testBit i <;> simp

/-- The test `(x >> i) & 1` reads bit `i`. -/
theorem shiftRight_and_one_ne_zero_iff (x i : Nat) :
    (x >>> i) &&& 1 ≠ 0 ↔ x.testBit i = true := by
  simp [Nat.testBit, Nat.and_comm]

/-- C6, as amended: for every chip state and every byte `d` that `PSG_Write` treats as a noise
configuration write (effective latch 6), the write is accepted and the feedback flag it stores,
bit 1 of `noise_type` (the flag `noise_type & 0x02` that `PSG_Cycle` tests), is set if and only
if bit 2 of `d` is set. -/
theorem PSG_Write_noise_feedback (s : psg_t) (d : Nat) (h : latchAfter s d = 6) :
    ∃ s', PSG_Write s d = some s' ∧
      s'.noise_type.testBit 1 = d.testBit 2 ∧
      (s'.noise_type &&& 0x02 ≠ 0 ↔ d.testBit 2 = true) := by
  have h21 : Nat.testBit 2 1 = true := by decide
  have h11 : Nat.testBit 1 1 = false := by decide
  have hmask : ∀ x : Nat, x &&& 0x02 ≠ 0 ↔ x.testBit 1 = true :=
    fun x => and_two_pow_ne_zero_iff x 1
  unfold latchAfter at h
  unfold PSG_Write
  by_cases h80 : d &&& 0x80 = 0
  · simp only [h80, ne_eq, not_true_eq_false, if_false] at h ⊢
    by_cases h3 : d &&& 0x03 = 3 <;> simp [h, h3, hmask, h21, h11]
  · simp only [h80, ne_eq, not_false_eq_true, if_true] at h ⊢
    by_cases h3 : d &&& 0x03 = 3 <;> simp [h, h3, hmask, h21, h11]

/-- The witness of C6 as amended: the byte `0xE4` (latch 6, bit 2 set, bit 1 clear) on the reset
state. -/
theorem PSG_Write_noise_feedback_witness :
    latchAfter (PSG_Reset psg_t.zero) 0xE4 = 6 ∧
    ∃ s', PSG_Write (PSG_Reset psg_t.zero) 0xE4 = some s' ∧
      s'.noise_type.testBit 1 = Nat.testBit 0xE4 2 ∧
      (s'.noise_type &&& 0x02 ≠ 0 ↔ Nat.testBit 0xE4 2 = true) :=
  ⟨by decide, PSG_Write_noise_feedback (PSG_Reset psg_t.zero) 0xE4 (by decide)⟩

/-- C6 as stated fails.  The byte `0xE2` is a noise configuration write (bit 7 set, selector 6)
with bit 1 set, and the stored `noise_type` is 0: the feedback flag is clear.  The byte `0xE4`
has bit 1 clear, and the stored `noise_type` is 2: the feedback flag is set. -/
theorem PSG_Write_noise_feedback_counterexample :
    (PSG_Reset psg_t.zero).inRange ∧
    (latchAfter (PSG_Reset psg_t.zero) 0xE2 = 6 ∧ Nat.testBit 0xE2 1 = true ∧
      ∃ s', PSG_Write (PSG_Reset psg_t.zero) 0xE2 = some s' ∧ s'.noise_type = 0 ∧
        s'.noise_type &&& 0x02 = 0) ∧
    (latchAfter (PSG_Reset psg_t.zero) 0xE4 = 6 ∧ Nat.testBit 0xE4 1 = false ∧
      ∃ s', PSG_Write (PSG_Reset psg_t.zero) 0xE4 = some s' ∧ s'.noise_type = 2 ∧
        s'.noise_type &&& 0x02 ≠ 0) :=
  ⟨by decide, ⟨by decide, by decide, _, rfl, rfl, rfl⟩,
    ⟨by decide, by decide, _, rfl, rfl, by decide⟩⟩

/-! ## Sample reads -/

/-- Four nibbles packed by shifts and ors are the base-16 number with those digits. -/
theorem pack_eq_sum {a b c d : Nat} (hb : b < 16) (hc : c < 16) (hd : d < 16) :
    (a <<< 12) ||| (b <<< 8) ||| (c <<< 4) ||| d = a * 4096 + b * 256 + c * 16 + d := by
  have h1 : 2 ^ 4 * c + d = 2 ^ 4 * c ||| d := Nat.mul_add_lt_is_or (i := 4) hd c
  have h2 : 2 ^ 8 * b + (2 ^ 4 * c + d) = 2 ^ 8 * b ||| (2 ^ 4 * c + d) :=
    Nat.mul_add_lt_is_or (i := 8) (by omega) b
  have h3 : 2 ^ 12 * a + (2 ^ 8 * b + (2 ^ 4 * c + d)) =
      2 ^ 12 * a ||| (2 ^ 8 * b + (2 ^ 4 * c + d)) :=
    Nat.mul_add_lt_is_or (i := 12) (by omega) a
  rw [Nat.or_assoc, Nat.or_assoc, Nat.shiftLeft_eq, Nat.shiftLeft_eq, Nat.shiftLeft_eq,
    Nat.mul_comm a, Nat.mul_comm b, Nat.mul_comm c, ← h1, ← h2, ← h3]
  omega

/-- The four 16-bit `sample |= output[i] << (4*(3 - i))` steps of `PSG_Read` lose nothing when
every output is a nibble. -/
theorem pack_steps {a b c d : Nat} (ha : a < 16) (hb : b < 16) (hc : c < 16) (hd : d < 16) :
    ((((0 ||| (a <<< (4 * (3 - 0)))) % 65536 ||| (b <<< (4 * (3 - 1)))) % 65536 |||
      (c <<< (4 * (3 - 2)))) % 65536 ||| (d <<< (4 * (3 - 3)))) % 65536 =
    (a <<< 12) ||| (b <<< 8) ||| (c <<< 4) ||| d := by
  have f1 : a <<< 12 < 65536 := by rw [Nat.shiftLeft_eq]; omega
  have e2 : b <<< 8 < 65536 := by rw [Nat.shiftLeft_eq]; omega
  have e3 : c <<< 4 < 65536 := by rw [Nat.shiftLeft_eq]; omega
  have e4 : d < 65536 := by omega
  have f2 : a <<< 12 ||| b <<< 8 < 65536 := Nat.or_lt_two_pow (n := 16) f1 e2
  have f3 : a <<< 12 ||| b <<< 8 ||| c <<< 4 < 65536 := Nat.or_lt_two_pow (n := 16) f2 e3
  have f4 : a <<< 12 ||| b <<< 8 ||| c <<< 4 ||| d < 65536 :=
    Nat.or_lt_two_pow (n := 16) f3 e4
  simp only [Nat.sub_zero, Nat.sub_self, Nat.mul_zero, Nat.shiftLeft_zero, Nat.zero_or,
    Nat.reduceSub, Nat.reduceMul]
  rw [Nat.mod_eq_of_lt f1, Nat.mod_eq_of_lt f2, Nat.mod_eq_of_lt f3, Nat.mod_eq_of_lt f4]

/-- The nibbles of a packed word. -/
theorem pack_nibbles {a b c d : Nat} (ha : a < 16) (hb : b < 16) (hc : c < 16) (hd : d < 16) :
    ((a <<< 12) ||| (b <<< 8) ||| (c <<< 4) ||| d) < 65536 ∧
    (((a <<< 12) ||| (b <<< 8) ||| (c <<< 4) ||| d) >>> 12) &&& 0x0f = a ∧
    (((a <<< 12) ||| (b <<< 8) ||| (c <<< 4) ||| d) >>> 8) &&& 0x0f = b ∧
    (((a <<< 12) ||| (b <<< 8) ||| (c <<< 4) ||| d) >>> 4) &&& 0x0f = c ∧
    ((a <<< 12) ||| (b <<< 8) ||| (c <<< 4) ||| d) &&& 0x0f = d := by
  have hm : ∀ x : Nat, x &&& 0x0f = x % 16 := fun x => Nat.and_pow_two_sub_one_eq_mod x 4
  rw [pack_eq_sum hb hc hd]
  simp only [hm, Nat.shiftRight_eq_div_pow]
  omega

/-- In normal mode (debug bit 0 clear) `PSG_UpdateSample` changes `output` only, each level
gated by the sign bit of its channel (tone) or by bit 14 of the noise register. -/
theorem PSG_UpdateSample_normal (s : psg_t) (hd : s.debug &&& 0x01 = 0) :
    PSG_UpdateSample s =
      { s with output :=
          ⟨if s.sign.testBit 0 then s.volume.e0 else 15,
           if s.sign.testBit 1 then s.volume.e1 else 15,
           if s.sign.testBit 2 then s.volume.e2 else 15,
           if s.noise.testBit 14 then s.volume.e3 else 15⟩ } := by
  have h0 : ((s.sign >>> 0) &&& 0x01 ≠ 0) = (s.sign.testBit 0 = true) :=
    propext (shiftRight_and_one_ne_zero_iff s.sign 0)
  have h1 : ((s.sign >>> 1) &&& 0x01 ≠ 0) = (s.sign.testBit 1 = true) :=
    propext (shiftRight_and_one_ne_zero_iff s.sign 1)
  have h2 : ((s.sign >>> 2) &&& 0x01 ≠ 0) = (s.sign.testBit 2 = true) :=
    propext (shiftRight_and_one_ne_zero_iff s.sign 2)
  have h3 : (s.noise &&& (0x01 <<< 14) ≠ 0) = (s.noise.testBit 14 = true) :=
    propext (and_two_pow_ne_zero_iff s.noise 14)
  unfold PSG_UpdateSample
  rw [if_neg (not_not.mpr hd)]
  cases b0 : s.sign.testBit 0 <;> cases b1 : s.sign.testBit 1 <;>
    cases b2 : s.sign.testBit 2 <;> cases b3 : s.noise.testBit 14 <;>
    simp only [h0, h1, h2, h3, b0, b1, b2, b3, if_true, if_false, Bool.false_eq_true]

/-- C7: for every chip state with debug bit 0 clear and every volume at most 15, `PSG_Read`
returns `(n0 << 12) | (n1 << 8) | (n2 << 4) | n3`, where `n_i` is `volume[i]` when bit `i` of
`sign` is set (tone channels 0-2) or bit 14 of `noise` is set (channel 3) and 15 otherwise; only
`output` changes, to `[n0, n1, n2, n3]`; the result is a 16-bit word whose nibbles, from bits
15-12 down to bits 3-0, are `n0 .. n3`, each at most 15. -/
theorem PSG_Read_normal (s : psg_t) (hd : s.debug &&& 0x01 = 0) (hv : s.volume.below 16) :
    let n0 := if s.sign.testBit 0 then s.volume.e0 else 15
    let n1 := if s.sign.testBit 1 then s.volume.e1 else 15
    let n2 := if s.sign.testBit 2 then s.volume.e2 else 15
    let n3 := if s.noise.testBit 14 then s.volume.e3 else 15
    (PSG_Read s).1 = (n0 <<< 12) ||| (n1 <<< 8) ||| (n2 <<< 4) ||| n3 ∧
    (PSG_Read s).2 = { s with output := ⟨n0, n1, n2, n3⟩ } ∧
    (n0 ≤ 15 ∧ n1 ≤ 15 ∧ n2 ≤ 15 ∧ n3 ≤ 15) ∧
    (PSG_Read s).1 < 65536 ∧
    ((PSG_Read s).1 >>> 12) &&& 0x0f = n0 ∧
    ((PSG_Read s).1 >>> 8) &&& 0x0f = n1 ∧
    ((PSG_Read s).1 >>> 4) &&& 0x0f = n2 ∧
    (PSG_Read s).1 &&& 0x0f = n3 := by
  intro n0 n1 n2 n3
  obtain ⟨v0, v1, v2, v3⟩ := hv
  have b0 : n0 < 16 := by simp only [n0]; split_ifs <;> omega
  have b1 : n1 < 16 := by simp only [n1]; split_ifs <;> omega
  have b2 : n2 < 16 := by simp only [n2]; split_ifs <;> omega
  have b3 : n3 < 16 := by simp only [n3]; split_ifs <;> omega
  have hu : PSG_UpdateSample s = { s with output := ⟨n0, n1, n2, n3⟩ } :=
    PSG_UpdateSample_normal s hd
  have hr : (PSG_Read s).1 = (n0 <<< 12) ||| (n1 <<< 8) ||| (n2 <<< 4) ||| n3 := by
    simp only [PSG_Read, hu]
    exact pack_steps b0 b1 b2 b3
  have hs : (PSG_Read s).2 = { s with output := ⟨n0, n1, n2, n3⟩ } := by
    simp only [PSG_Read, hu]
  refine ⟨hr, hs, ⟨by omega, by omega, by omega, by omega⟩, ?_⟩
  rw [hr]
  exact pack_nibbles b0 b1 b2 b3

/-- The witness of C7: volumes 1, 2, 3, 4 with the sign bits of channels 0 and 2 and bit 14 of
the noise register set read as `0x1F34`. -/
theorem PSG_Read_normal_witness :
    (psg_t.playing.debug &&& 0x01 = 0 ∧ psg_t.playing.volume.below 16) ∧
    (PSG_Read psg_t.playing).1 = 0x1F34 ∧
    (PSG_Read psg_t.playing).2 = { psg_t.playing with output := ⟨1, 15, 3, 4⟩ } :=
  ⟨by decide, (PSG_Read_normal psg_t.playing (by decide) (by decide)).1,
    (PSG_Read_normal psg_t.playing (by decide) (by decide)).2.1⟩

/-- In debug mode (debug bit 0 set) `PSG_UpdateSample` makes `output` a copy of `volume` and
changes nothing else. -/
theorem PSG_UpdateSample_debug (s : psg_t) (hd : s.debug &&& 0x01 ≠ 0) :
    PSG_UpdateSample s = { s with output := s.volume } := by
  unfold PSG_UpdateSample
  rw [if_pos hd]

/-- C8: for every chip state with debug bit 0 set and every volume at most 15, `PSG_Read`
returns `(volume[0] << 12) | (volume[1] << 8) | (volume[2] << 4) | volume[3]` and copies
`volume` to `output`; any state `t` with the same `volume` and `debug` reads the same word,
whatever its sign, noise, counter, freq, inverse and output fields hold. -/
theorem PSG_Read_debug (s t : psg_t) (hd : s.debug &&& 0x01 ≠ 0) (hv : s.volume.below 16)
    (hvol : t.volume = s.volume) (hdbg : t.debug = s.debug) :
    (PSG_Read s).1 =
      (s.volume.e0 <<< 12) ||| (s.volume.e1 <<< 8) ||| (s.volume.e2 <<< 4) ||| s.volume.e3 ∧
    (PSG_Read s).2 = { s with output := s.volume } ∧
    (PSG_Read t).1 = (PSG_Read s).1 := by
  obtain ⟨v0, v1, v2, v3⟩ := hv
  have hs := PSG_UpdateSample_debug s hd
  have ht := PSG_UpdateSample_debug t (hdbg ▸ hd)
  have hr : ∀ u : psg_t, u.volume = s.volume →
      PSG_UpdateSample u = { u with output := u.volume } →
      (PSG_Read u).1 =
        (s.volume.e0 <<< 12) ||| (s.volume.e1 <<< 8) ||| (s.volume.e2 <<< 4) ||| s.volume.e3 := by
    intro u hu hupd
    simp only [PSG_Read, hupd, hu]
    exact pack_steps v0 v1 v2 v3
  refine ⟨hr s rfl hs, ?_, ?_⟩
  · simp only [PSG_Read, hs]
  · rw [hr s rfl hs, hr t hvol ht]

/-- The witness of C8: two states with volumes 1, 2, 3, 4 and `debug = 1`, one with sign bits and
noise bit 14 set, the other with sign and noise zero, both read `0x1234`. -/
theorem PSG_Read_debug_witness :
    (({ psg_t.playing with debug := 1 } : psg_t).debug &&& 0x01 ≠ 0 ∧
      ({ psg_t.playing with debug := 1 } : psg_t).volume.below 16) ∧
    (PSG_Read { psg_t.playing with debug := 1 }).1 = 0x1234 ∧
    (PSG_Read { PSG_Reset psg_t.zero with volume := ⟨1, 2, 3, 4⟩, debug := 1 }).1 =
      (PSG_Read { psg_t.playing with debug := 1 }).1 :=
  ⟨by decide,
    (PSG_Read_debug { psg_t.playing with debug := 1 }
      { PSG_Reset psg_t.zero with volume := ⟨1, 2, 3, 4⟩, debug := 1 }
      (by decide) (by decide) rfl rfl).1,
    (PSG_Read_debug { psg_t.playing with debug := 1 }
      { PSG_Reset psg_t.zero with volume := ⟨1, 2, 3, 4⟩, debug := 1 }
      (by decide) (by decide) rfl rfl).2.2⟩

/-- Every index up to 16 is inside `psg_vol`. -/
theorem psg_vol_defined {o : Nat} (ho : o < 17) : ∃ v, psg_vol[o]? = some v := by
  interval_cases o <;> exact ⟨_, rfl⟩

/-- C9: for every chip state with every volume at most 15 and `debug = 2k+1`, `k` in 0..3,
`PSG_GetSample` returns `3 * psg_vol[16] + psg_vol[volume[ch]]` with `ch` the entry `k` of the
permutation `[0, 2, 1, 3]`, the table entries taken as exact rationals; for `k = 2` the channel
is 1.  The record it leaves has `output` equal to `volume`. -/
theorem PSG_GetSample_debug (s : psg_t) (k : Nat) (hk : k ≤ 3) (hd : s.debug = 2 * k + 1)
    (hv : s.volume.below 16) :
    ∃ ch vol v, [0, 2, 1, 3][k]? = some ch ∧ s.volume.get? ch = some vol ∧
      psg_vol[vol]? = some v ∧ psg_vol[16]? = some (-1.059 : ℚ) ∧
      PSG_GetSample s = some (3 * (-1.059 : ℚ) + v, { s with output := s.volume }) ∧
      (k = 2 → ch = 1) := by
  obtain ⟨v0, v1, v2, v3⟩ := hv
  have hbit : s.debug &&& 0x01 ≠ 0 := by
    rw [hd]
    interval_cases k <;> decide
  have hu := PSG_UpdateSample_debug s hbit
  have hidx : s.debug >>> 1 = k := by
    rw [hd]
    interval_cases k <;> rfl
  have h16 : psg_vol[16]? = some (-1.059 : ℚ) := rfl
  obtain ⟨w0, hw0⟩ := psg_vol_defined (show s.volume.e0 < 17 by omega)
  obtain ⟨w1, hw1⟩ := psg_vol_defined (show s.volume.e1 < 17 by omega)
  obtain ⟨w2, hw2⟩ := psg_vol_defined (show s.volume.e2 < 17 by omega)
  obtain ⟨w3, hw3⟩ := psg_vol_defined (show s.volume.e3 < 17 by omega)
  have hg : ∀ ch vol v, psg_debug_chan[k]? = some ch → s.volume.get? ch = some vol →
      psg_vol[vol]? = some v →
      PSG_GetSample s = some (3 * (-1.059 : ℚ) + v, { s with output := s.volume }) := by
    intro ch vol v h1 h2 h3
    unfold PSG_GetSample
    simp only [hu, hbit, hidx, h16, h1, h2, h3, ne_eq, not_false_eq_true, if_true,
      Option.bind_eq_bind, Option.some_bind]
  interval_cases k
  · exact ⟨0, s.volume.e0, w0, rfl, rfl, hw0, h16, hg _ _ _ rfl rfl hw0, by omega⟩
  · exact ⟨2, s.volume.e2, w2, rfl, rfl, hw2, h16, hg _ _ _ rfl rfl hw2, by omega⟩
  · exact ⟨1, s.volume.e1, w1, rfl, rfl, hw1, h16, hg _ _ _ rfl rfl hw1, by omega⟩
  · exact ⟨3, s.volume.e3, w3, rfl, rfl, hw3, h16, hg _ _ _ rfl rfl hw3, by omega⟩

/-- The witness of C9: volumes 1, 2, 3, 4 and `debug = 5` (index 2) isolate channel 1. -/
theorem PSG_GetSample_debug_witness :
    (2 ≤ 3 ∧ ({ psg_t.playing with debug := 5 } : psg_t).debug = 2 * 2 + 1 ∧
      ({ psg_t.playing with debug := 5 } : psg_t).volume.below 16) ∧
    ∃ ch vol v, [0, 2, 1, 3][2]? = some ch ∧
      ({ psg_t.playing with debug := 5 } : psg_t).volume.get? ch = some vol ∧
      psg_vol[vol]? = some v ∧ psg_vol[16]? = some (-1.059 : ℚ) ∧
      PSG_GetSample { psg_t.playing with debug := 5 } =
        some (3 * (-1.059 : ℚ) + v,
          { ({ psg_t.playing with debug := 5 } : psg_t) with
            output := ({ psg_t.playing with debug := 5 } : psg_t).volume }) ∧
      (2 = 2 → ch = 1) :=
  ⟨by decide,
    PSG_GetSample_debug { psg_t.playing with debug := 5 } 2 (by decide) (by decide) (by decide)⟩

/-- Refreshing the outputs twice is refreshing them once. -/
theorem PSG_UpdateSample_idem (s : psg_t) :
    PSG_UpdateSample (PSG_UpdateSample s) = PSG_UpdateSample s := by
  by_cases hd : s.debug &&& 0x01 = 0
  · have h := PSG_UpdateSample_normal s hd
    rw [h]
    exact PSG_UpdateSample_normal _ hd
  · have h := PSG_UpdateSample_debug s hd
    rw [h]
    exact PSG_UpdateSample_debug _ hd

/-- With every volume at most 15 and `debug` at most 7, every table index of `PSG_GetSample` is
inside its table: the function returns a sample, and the record `PSG_UpdateSample` leaves. -/
theorem PSG_GetSample_defined (s : psg_t) (hv : s.volume.below 16) (hd : s.debug ≤ 7) :
    ∃ x, PSG_GetSample s = some (x, PSG_UpdateSample s) := by
  obtain ⟨v0, v1, v2, v3⟩ := hv
  obtain ⟨w0, hw0⟩ := psg_vol_defined (show s.volume.e0 < 17 by omega)
  obtain ⟨w1, hw1⟩ := psg_vol_defined (show s.volume.e1 < 17 by omega)
  obtain ⟨w2, hw2⟩ := psg_vol_defined (show s.volume.e2 < 17 by omega)
  obtain ⟨w3, hw3⟩ := psg_vol_defined (show s.volume.e3 < 17 by omega)
  have h15 : psg_vol[15]? = some (0.0 : ℚ) := rfl
  have h16 : psg_vol[16]? = some (-1.059 : ℚ) := rfl
  by_cases hbit : s.debug &&& 0x01 = 0
  · have hu := PSG_UpdateSample_normal s hbit
    unfold PSG_GetSample
    rw [hu]
    simp only [hbit, ne_eq, not_true_eq_false, if_false]
    cases b0 : s.sign.testBit 0 <;> cases b1 : s.sign.testBit 1 <;>
      cases b2 : s.sign.testBit 2 <;> cases b3 : s.noise.testBit 14 <;>
      simp only [if_true, if_false, Bool.false_eq_true, hw0, hw1, hw2, hw3, h15,
        Option.bind_eq_bind, Option.some_bind] <;>
      exact ⟨_, rfl⟩
  · have hu := PSG_UpdateSample_debug s hbit
    unfold PSG_GetSample
    rw [hu]
    simp only [hbit, ne_eq, not_false_eq_true, if_true, h16, Option.bind_eq_bind,
      Option.some_bind]
    generalize hdv : s.debug = dv at hd hbit ⊢
    interval_cases dv <;> first
      | exact absurd rfl hbit
      | (simp only [psg_debug_chan, Arr4.get?, hw0, hw1, hw2, hw3, Option.bind_eq_bind,
          Option.some_bind, Nat.reduceShiftRight, List.getElem?_cons_zero,
          List.getElem?_cons_succ]
         exact ⟨_, rfl⟩)

/-- The record `PSG_GetSample` leaves is the one `PSG_UpdateSample` leaves. -/
theorem PSG_GetSample_state (s : psg_t) (x : ℚ) (s1 : psg_t)
    (h : PSG_GetSample s = some (x, s1)) : s1 = PSG_UpdateSample s := by
  unfold PSG_GetSample at h
  simp only [Option.bind_eq_bind] at h
  split_ifs at h
  all_goals
    simp only [Option.bind_eq_some] at h
    obtain ⟨_, _, _, _, _, _, _, _, h⟩ := h
    exact (congrArg Prod.snd (Option.some.inj h)).symm

/-- C10: for every chip state, a sample read that follows another sample read with nothing in
between returns what it would have returned in place of the first and leaves the record as the
first read left it: `PSG_Read` after `PSG_Read` gives the same word, `PSG_GetSample` after
`PSG_Read` gives the sample `PSG_GetSample` gives on the original state, and after a
`PSG_GetSample` that returned `x` a second `PSG_GetSample` returns `x` again and `PSG_Read` the
word of the original state.  With every volume at most 15 and `debug` at most 7,
`PSG_GetSample` does return a sample. -/
theorem sample_read_idempotent (s : psg_t) :
    (PSG_Read s).2 = PSG_UpdateSample s ∧
    PSG_Read (PSG_Read s).2 = PSG_Read s ∧
    PSG_GetSample (PSG_Read s).2 = PSG_GetSample s ∧
    (∀ x s1, PSG_GetSample s = some (x, s1) →
      s1 = (PSG_Read s).2 ∧ PSG_GetSample s1 = some (x, s1) ∧ PSG_Read s1 = PSG_Read s) ∧
    (s.volume.below 16 → s.debug ≤ 7 →
      ∃ x, PSG_GetSample s = some (x, (PSG_Read s).2)) := by
  have hst : (PSG_Read s).2 = PSG_UpdateSample s := rfl
  have hrd : PSG_Read (PSG_UpdateSample s) = PSG_Read s := by
    simp only [PSG_Read, PSG_UpdateSample_idem]
  have hgs : PSG_GetSample (PSG_UpdateSample s) = PSG_GetSample s := by
    simp only [PSG_GetSample, PSG_UpdateSample_idem]
  refine ⟨hst, ?_, ?_, ?_, ?_⟩
  · rw [hst, hrd]
  · rw [hst, hgs]
  · intro x s1 h
    have h1 := PSG_GetSample_state s x s1 h
    subst h1
    exact ⟨hst.symm, hgs.trans h, hrd⟩
  · intro hv hd
    rw [hst]
    exact PSG_GetSample_defined s hv hd

/-- The witness of C10: on the playback state `PSG_GetSample` returns a sample, and every
repeated read agrees with the first. -/
theorem sample_read_idempotent_witness :
    (psg_t.playing.volume.below 16 ∧ psg_t.playing.debug ≤ 7) ∧
    (∃ x, PSG_GetSample psg_t.playing = some (x, (PSG_Read psg_t.playing).2)) ∧
    PSG_Read (PSG_Read psg_t.playing).2 = PSG_Read psg_t.playing ∧
    PSG_GetSample (PSG_Read psg_t.playing).2 = PSG_GetSample psg_t.playing :=
  ⟨by decide, (sample_read_idempotent psg_t.playing).2.2.2.2 (by decide) (by decide),
    (sample_read_idempotent psg_t.playing).2.1, (sample_read_idempotent psg_t.playing).2.2.1⟩

/-! ## The per-cycle advance -/

theorem Arr4.get?_defined (a : Arr4) {i : Nat} (hi : i ≤ 3) : ∃ v, a.get? i = some v := by
  interval_cases i <;> exact ⟨_, rfl⟩

theorem Arr4.set?_defined (a : Arr4) {i : Nat} (hi : i ≤ 3) (v : Nat) :
    ∃ b, a.set? i v = some b := by
  interval_cases i <;> exact ⟨_, rfl⟩

/-- One `PSG_Cycle` call, field by field, once the three array accesses are known to succeed. -/
theorem PSG_Cycle_eq (s : psg_t) {ctr fr : Nat} {ctr' : Arr4}
    (h1 : s.counter.get? s.cycle = some ctr) (h2 : s.freq.get? s.cycle = some fr)
    (h3 : s.counter.set? s.cycle (((if ctr ≥ fr then 0 else ctr) + 1) % 65536) = some ctr') :
    PSG_Cycle s = some
      { latch := s.latch, volume := s.volume, output := s.output, freq := s.freq,
        counter := ctr',
        sign := if s.cycle = 0 then s.sign ^^^ s.inverse else s.sign,
        noise_data := if s.noise_reset &&& 0x02 ≠ 0 then 0 else s.noise_data,
        noise_reset := (s.noise_reset <<< 1) % 256,
        noise_update := noiseUpdateNext s,
        noise_type := s.noise_type,
        noise := if noiseUpdateNext s &&& 0x03 = 0x01 then noiseShift s.noise_type s.noise
          else s.noise,
        inverse :=
          if ctr ≥ fr then ((if s.cycle = 0 then 0 else s.inverse) ||| (1 <<< s.cycle)) % 256
          else if s.cycle = 0 then 0 else s.inverse,
        cycle := (s.cycle + 1) &&& 0x03,
        debug := s.debug } := by
  unfold PSG_Cycle
  simp only [noiseShift, noiseUpdateNext]
  by_cases hclk : (s.noise_update <<< 1 % 256 |||
      s.sign >>> (3 - (s.noise_type &&& 1)) &&& 1) &&& 3 = 1 <;>
  by_cases hrst : s.noise_reset &&& 2 = 0 <;>
  by_cases hc0 : s.cycle = 0 <;>
  by_cases hov : ctr ≥ fr <;>
  (simp only [hclk, hrst, hc0, hov, if_true, if_false, ne_eq, not_true_eq_false,
    not_false_eq_true] at h1 h2 h3 ⊢
   simp only [h1, h2, h3, hov, Option.bind_eq_bind, Option.some_bind, if_true, if_false])

/-- What a successful store leaves in the array. -/
theorem Arr4.get?_set? {a b : Arr4} {i v : Nat} (h : a.set? i v = some b) :
    b.get? i = some v ∧ ∀ j, j ≠ i → b.get? j = a.get? j := by
  rcases i with _ | _ | _ | _ | i <;> simp [Arr4.set?] at h <;> subst h <;>
    refine ⟨rfl, fun j hj => ?_⟩ <;>
    rcases j with _ | _ | _ | _ | j <;> simp [Arr4.get?] at hj ⊢

/-- `PSG_Cycle` returns exactly on the states whose `cycle` is an array index. -/
theorem PSG_Cycle_cycle_le {s s' : psg_t} (h : PSG_Cycle s = some s') : s.cycle ≤ 3 := by
  by_contra hc
  have hc0 : s.cycle ≠ 0 := by omega
  have hg : s.counter.get? s.cycle = none := by
    have : 4 ≤ s.cycle := by omega
    obtain ⟨k, hk⟩ := Nat.exists_eq_add_of_le this
    rw [hk, Nat.add_comm]
    rfl
  unfold PSG_Cycle at h
  by_cases hclk : (s.noise_update <<< 1 % 256 |||
      s.sign >>> (3 - (s.noise_type &&& 1)) &&& 1) &&& 3 = 1 <;>
  by_cases hrst : s.noise_reset &&& 2 = 0 <;>
  simp only [hclk, hrst, hc0, hg, if_true, if_false, ne_eq, not_true_eq_false,
    not_false_eq_true, Option.bind_eq_bind, Option.none_bind, reduceCtorEq] at h

/-- One `PSG_Cycle` call from a state whose `cycle` is at most 3: it returns, and every field
of the record it leaves is given in terms of the record it started from. -/
theorem PSG_Cycle_fields (s : psg_t) (hc : s.cycle ≤ 3) :
    ∃ ctr fr s', s.counter.get? s.cycle = some ctr ∧ s.freq.get? s.cycle = some fr ∧
      PSG_Cycle s = some s' ∧
      s'.cycle = (s.cycle + 1) % 4 ∧
      s'.counter.get? s.cycle = some (((if ctr ≥ fr then 0 else ctr) + 1) % 65536) ∧
      (∀ j, j ≠ s.cycle → s'.counter.get? j = s.counter.get? j) ∧
      s'.sign = (if s.cycle = 0 then s.sign ^^^ s.inverse else s.sign) ∧
      s'.inverse =
        (if ctr ≥ fr then ((if s.cycle = 0 then 0 else s.inverse) ||| (1 <<< s.cycle)) % 256
          else if s.cycle = 0 then 0 else s.inverse) ∧
      s'.noise_update = noiseUpdateNext s ∧
      s'.noise =
        (if noiseUpdateNext s &&& 0x03 = 0x01 then noiseShift s.noise_type s.noise
          else s.noise) ∧
      s'.noise_data = (if s.noise_reset &&& 0x02 ≠ 0 then 0 else s.noise_data) ∧
      s'.noise_reset = (s.noise_reset <<< 1) % 256 ∧
      s'.latch = s.latch ∧ s'.volume = s.volume ∧ s'.output = s.output ∧ s'.freq = s.freq ∧
      s'.noise_type = s.noise_type ∧ s'.debug = s.debug := by
  obtain ⟨ctr, h1⟩ := Arr4.get?_defined s.counter hc
  obtain ⟨fr, h2⟩ := Arr4.get?_defined s.freq hc
  obtain ⟨ctr', h3⟩ :=
    Arr4.set?_defined s.counter hc (((if ctr ≥ fr then 0 else ctr) + 1) % 65536)
  obtain ⟨g1, g2⟩ := Arr4.get?_set? h3
  have hm : (s.cycle + 1) &&& 0x03 = (s.cycle + 1) % 4 :=
    Nat.and_pow_two_sub_one_eq_mod (s.cycle + 1) 2
  refine ⟨ctr, fr, _, h1, h2, PSG_Cycle_eq s h1 h2 h3, hm, g1, g2, rfl, rfl, rfl, rfl, rfl,
    rfl, rfl, rfl, rfl, rfl, rfl, rfl⟩

/-- The store `inverse |= 1 << cycle` sets bit `cycle` of the 8-bit field. -/
theorem inverse_bit_set (x : Nat) {c : Nat} (hc : c ≤ 3) :
    ((x ||| (1 <<< c)) % 256).testBit c = true := by
  have h256 : (256 : Nat) = 2 ^ 8 := rfl
  have hlt : c < 8 := by omega
  rw [h256, Nat.testBit_mod_two_pow, Nat.testBit_or, Nat.testBit_shiftLeft]
  simp [hlt]

/-- C11, as amended: for every chip state with `cycle = c <= 3` (and `freq` entries that fit
their 16-bit type), one `PSG_Cycle` call returns; if the old `counter[c] >= freq[c]` then
`counter[c]` becomes 1 (reset to 0 and then incremented by the unconditional `counter + 1`
store) and bit `c` of `inverse` is set; otherwise `counter[c]` is the old value plus 1 and the
call records no flip: `inverse` is what the polarity resolution left (0 when `c = 0`, the old
`inverse` otherwise). -/
theorem PSG_Cycle_counter (s : psg_t) (c : Nat) (hc : c ≤ 3) (hcy : s.cycle = c)
    (hf : s.freq.below 65536) :
    ∃ ctr fr s', s.counter.get? c = some ctr ∧ s.freq.get? c = some fr ∧
      PSG_Cycle s = some s' ∧
      (ctr ≥ fr → s'.counter.get? c = some 1 ∧ s'.inverse.testBit c = true) ∧
      (ctr < fr → s'.counter.get? c = some (ctr + 1) ∧
        s'.inverse = (if c = 0 then 0 else s.inverse)) := by
  subst hcy
  obtain ⟨ctr, fr, s', h1, h2, h3, -, h5, -, -, h8, -⟩ := PSG_Cycle_fields s hc
  have hfr : fr < 65536 := by
    obtain ⟨f0, f1, f2, f3⟩ := hf
    generalize s.cycle = c at hc h2
    interval_cases c <;> simp [Arr4.get?] at h2 <;> omega
  refine ⟨ctr, fr, s', h1, h2, h3, ?_, ?_⟩
  · intro hov
    rw [h5, h8, if_pos hov, if_pos hov]
    exact ⟨rfl, inverse_bit_set _ hc⟩
  · intro hlt
    have hno : ¬ ctr ≥ fr := by omega
    rw [h5, h8, if_neg hno, if_neg hno]
    refine ⟨?_, rfl⟩
    rw [Nat.mod_eq_of_lt (by omega)]

/-- The witness of C11 as amended: the reset state, whose `cycle` is 0. -/
theorem PSG_Cycle_counter_witness :
    (0 ≤ 3 ∧ (PSG_Reset psg_t.zero).cycle = 0 ∧ (PSG_Reset psg_t.zero).freq.below 65536) ∧
    ∃ ctr fr s', (PSG_Reset psg_t.zero).counter.get? 0 = some ctr ∧
      (PSG_Reset psg_t.zero).freq.get? 0 = some fr ∧
      PSG_Cycle (PSG_Reset psg_t.zero) = some s' ∧
      (ctr ≥ fr → s'.counter.get? 0 = some 1 ∧ s'.inverse.testBit 0 = true) ∧
      (ctr < fr → s'.counter.get? 0 = some (ctr + 1) ∧
        s'.inverse = (if 0 = 0 then 0 else (PSG_Reset psg_t.zero).inverse)) :=
  ⟨by decide, PSG_Cycle_counter (PSG_Reset psg_t.zero) 0 (by decide) rfl (by decide)⟩

/-- C11 as stated fails.  On the reset state `cycle = 0` and `counter[0] = 0 >= freq[0] = 0`;
after the call `counter[0]` is 1, not 0: the branch sets the local `counter` to 0 and the store
`chip->counter[chip->cycle] = counter + 1` that follows is unconditional. -/
theorem PSG_Cycle_counter_counterexample :
    (PSG_Reset psg_t.zero).inRange ∧ (PSG_Reset psg_t.zero).cycle = 0 ∧
    (PSG_Reset psg_t.zero).counter.get? 0 = some 0 ∧
    (PSG_Reset psg_t.zero).freq.get? 0 = some 0 ∧
    ∃ s', PSG_Cycle (PSG_Reset psg_t.zero) = some s' ∧ s'.counter.get? 0 = some 1 ∧
      s'.counter.get? 0 ≠ some 0 :=
  ⟨by decide, rfl, rfl, rfl, _, rfl, rfl, by decide⟩

/-- A pending flip survives the store `inverse |= 1 << cycle`. -/
theorem inverse_bit_kept {x i : Nat} (c : Nat) (hi : i ≤ 3) (hx : x.testBit i = true) :
    ((x ||| (1 <<< c)) % 256).testBit i = true := by
  have h256 : (256 : Nat) = 2 ^ 8 := rfl
  have hlt : i < 8 := by omega
  rw [h256, Nat.testBit_mod_two_pow, Nat.testBit_or, hx]
  simp [hlt]

theorem PSG_Cycles_succ (n : Nat) (s : psg_t) :
    PSG_Cycles (n + 1) s = (PSG_Cycles n s).bind PSG_Cycle := rfl

/-- The state of channel `i` after `n` calls that follow an overflow of channel `i`: the flip
is pending up to the call that ends the round and applied by the call that starts the next. -/
theorem flip_pending (s : psg_t) (i : Nat) (hi : i ≤ 3) (hinv : s.inverse.testBit i = false)
    (hov : overflowsAt i s) (n : Nat) (h1 : 1 ≤ n) :
    n ≤ 5 → ∃ sn, PSG_Cycles n s = some sn ∧ sn.cycle = (i + n) % 4 ∧
      (n ≤ 4 - i → sn.sign.testBit i = s.sign.testBit i ∧ sn.inverse.testBit i = true) ∧
      (4 - i < n → sn.sign.testBit i = !s.sign.testBit i) := by
  obtain ⟨hcy, ctr0, fr0, hc0, hf0, hge⟩ := hov
  induction n, h1 using Nat.le_induction with
  | base =>
    intro _
    obtain ⟨ctr, fr, s', g1, g2, g3, g4, -, -, g7, g8, -⟩ := PSG_Cycle_fields s (hcy ▸ hi)
    rw [hcy] at g1 g2 g4 g7 g8
    rw [hc0] at g1
    rw [hf0] at g2
    obtain rfl := Option.some.inj g1
    obtain rfl := Option.some.inj g2
    refine ⟨s', ?_, g4, fun _ => ⟨?_, ?_⟩, fun h => by omega⟩
    · simp [PSG_Cycles, g3]
    · rw [g7]
      split_ifs with h0
      · rw [Nat.testBit_xor, hinv]
        simp
      · rfl
    · rw [g8, if_pos hge]
      exact inverse_bit_set _ hi
  | succ n h1 ih =>
    intro h5
    obtain ⟨sn, e1, e2, e3, e4⟩ := ih (by omega)
    have hcn : sn.cycle ≤ 3 := by rw [e2]; omega
    obtain ⟨ctr, fr, s', -, -, g3, g4, -, -, g7, g8, -⟩ := PSG_Cycle_fields sn hcn
    refine ⟨s', ?_, ?_, ?_, ?_⟩
    · rw [PSG_Cycles_succ, e1]
      exact g3
    · rw [g4, e2]
      omega
    · intro hle
      obtain ⟨a1, a2⟩ := e3 (by omega)
      have hne : sn.cycle ≠ 0 := by rw [e2]; omega
      rw [g7, g8]
      simp only [hne, if_false]
      refine ⟨a1, ?_⟩
      split_ifs
      · exact inverse_bit_kept _ hi a2
      · exact a2
    · intro hgt
      by_cases hn : n = 4 - i
      · obtain ⟨a1, a2⟩ := e3 (by omega)
        have h0 : sn.cycle = 0 := by rw [e2]; omega
        rw [g7, if_pos h0, Nat.testBit_xor, a1, a2]
        simp
      · have hne : sn.cycle ≠ 0 := by rw [e2]; omega
        rw [g7, if_neg hne]
        exact e4 (by omega)

/-- C12, as amended: for every channel `i <= 3` and every chip state with `cycle = i`, bit `i`
of `inverse` clear and `counter[i] >= freq[i]`, the next five `PSG_Cycle` calls all return; bit
`i` of `sign` has its original value after each of the first `4 - i` calls and the opposite
value after call `5 - i` and every later call up to the fifth.  The flip is applied by the call
that starts the next round (`cycle = 0`), which is `4 - i` ticks after the overflow tick: four
ticks for channel 0, one tick for channel 3, never the overflow tick itself. -/
theorem sign_flip_latency (s : psg_t) (i : Nat) (hi : i ≤ 3)
    (hinv : s.inverse.testBit i = false) (hov : overflowsAt i s) (n : Nat) (h1 : 1 ≤ n)
    (h5 : n ≤ 5) :
    ∃ sn, PSG_Cycles n s = some sn ∧
      sn.sign.testBit i = (if n ≤ 4 - i then s.sign.testBit i else !s.sign.testBit i) := by
  obtain ⟨sn, e1, -, e3, e4⟩ := flip_pending s i hi hinv hov n h1 h5
  refine ⟨sn, e1, ?_⟩
  split_ifs with h
  · exact (e3 h).1
  · exact e4 (by omega)

/-- The witness of C12 as amended: channel 3 at the end of a round, second call. -/
theorem sign_flip_latency_witness :
    (3 ≤ 3 ∧ psg_t.atChannel3.inverse.testBit 3 = false ∧ overflowsAt 3 psg_t.atChannel3 ∧
      1 ≤ 2 ∧ 2 ≤ 5) ∧
    ∃ sn, PSG_Cycles 2 psg_t.atChannel3 = some sn ∧
      sn.sign.testBit 3 =
        (if 2 ≤ 4 - 3 then psg_t.atChannel3.sign.testBit 3
          else !psg_t.atChannel3.sign.testBit 3) :=
  ⟨⟨by decide, by decide, ⟨rfl, 0, 0, rfl, rfl, by decide⟩, by decide, by decide⟩,
    sign_flip_latency psg_t.atChannel3 3 (by decide) (by decide)
      ⟨rfl, 0, 0, rfl, rfl, by decide⟩ 2 (by decide) (by decide)⟩

/-- C12 as stated fails for channel 3.  The state `psg_t.atChannel3` is reached from reset by
the byte `0xE3` and three `PSG_Cycle` calls; it has `cycle = 3`, bit 3 of `inverse` clear and
`counter[3] = 0 >= freq[3] = 0`.  The first call records the flip, the second call has
`cycle = 0` and applies it: bit 3 of `sign` is 1 before and 0 after the second call, not
unchanged through the fourth. -/
theorem sign_flip_latency_counterexample :
    (PSG_Write (PSG_Reset psg_t.zero) 0xE3).bind (PSG_Cycles 3) = some psg_t.atChannel3 ∧
    psg_t.atChannel3.inRange ∧ psg_t.atChannel3.cycle = 3 ∧
    psg_t.atChannel3.inverse.testBit 3 = false ∧
    psg_t.atChannel3.counter.get? 3 = some 0 ∧ psg_t.atChannel3.freq.get? 3 = some 0 ∧
    psg_t.atChannel3.sign.testBit 3 = true ∧
    ∃ s2, PSG_Cycles 2 psg_t.atChannel3 = some s2 ∧ s2.sign.testBit 3 = false :=
  ⟨rfl, by decide, rfl, by decide, rfl, rfl, by decide, _, rfl, by decide⟩

/-- The edge test of `PSG_Cycle` succeeds when the newest history bit is clear and the tapped
sign bit is set. -/
theorem noiseUpdateNext_rising (s : psg_t) (hu : s.noise_update.testBit 0 = false)
    (ht : s.sign.testBit (3 - (s.noise_type &&& 0x01)) = true) :
    noiseUpdateNext s &&& 0x03 = 0x01 := by
  have htap : (s.sign >>> (3 - (s.noise_type &&& 0x01))) &&& 0x01 = 1 := by
    have h := (shiftRight_and_one_ne_zero_iff s.sign (3 - (s.noise_type &&& 0x01))).mpr ht
    have hlt : (s.sign >>> (3 - (s.noise_type &&& 0x01))) &&& 0x01 < 2 :=
      Nat.and_lt_two_pow _ (n := 1) (by decide)
    omega
  have heven : s.noise_update % 2 = 0 := by
    rw [Nat.testBit_zero] at hu
    have := of_decide_eq_false hu
    omega
  have hA : ((s.noise_update <<< 1) % 256) &&& 0x03 = 0 := by
    have h3 : ∀ x : Nat, x &&& 0x03 = x % 4 := fun x => Nat.and_pow_two_sub_one_eq_mod x 2
    rw [h3, Nat.shiftLeft_eq]
    omega
  unfold noiseUpdateNext
  rw [htap, Nat.and_distrib_right, hA]
  rfl

/-- Truncation to 16 bits keeps the low 16 bits. -/
theorem testBit_mod_65536 (x : Nat) {i : Nat} (hi : i < 16) :
    (x % 65536).testBit i = x.testBit i := by
  have h := Nat.testBit_mod_two_pow x 16 i
  rw [decide_eq_true hi, Bool.true_and] at h
  exact h

/-- A qualifying clock on a register whose low 15 bits are zero shifts a 1 in. -/
theorem noiseShift_recovers (noise_type : Nat) {noise : Nat} (h : noise &&& 0x7fff = 0) :
    (noiseShift noise_type noise).testBit 0 = true := by
  unfold noiseShift
  simp only [h, if_true]
  split_ifs
  · rw [testBit_mod_65536 _ (by decide), Nat.testBit_or, Nat.testBit_or, Nat.testBit_one_zero,
      Bool.true_or, Bool.or_true]
  · rw [testBit_mod_65536 _ (by decide), Nat.testBit_or, Nat.testBit_one_zero, Bool.or_true]

/-- C13: for every chip state in which the low 15 bits of `noise` are zero, bit 0 of
`noise_update` is clear and the tapped sign bit (bit `3 - (noise_type & 1)` of `sign`) is set,
whatever the noise mode in `noise_type`: the `PSG_Cycle` call returns whenever `cycle` is an
index (at most 3), and the record it returns has bit 0 of `noise` set, so the low 15 bits of
the register are no longer zero. -/
theorem noise_self_recovery (s : psg_t) (hz : s.noise &&& 0x7fff = 0)
    (hu : s.noise_update.testBit 0 = false)
    (ht : s.sign.testBit (3 - (s.noise_type &&& 0x01)) = true) :
    (s.cycle ≤ 3 → ∃ s', PSG_Cycle s = some s') ∧
    ∀ s', PSG_Cycle s = some s' → s'.noise.testBit 0 = true ∧ s'.noise &&& 0x7fff ≠ 0 := by
  refine ⟨fun hc => ?_, fun s' hs => ?_⟩
  · obtain ⟨_, _, s', -, -, h, -⟩ := PSG_Cycle_fields s hc
    exact ⟨s', h⟩
  · obtain ⟨_, _, t, -, -, g3, -, -, -, -, -, -, g10, -⟩ :=
      PSG_Cycle_fields s (PSG_Cycle_cycle_le hs)
    rw [hs] at g3
    obtain rfl := Option.some.inj g3
    have hb : s'.noise.testBit 0 = true := by
      rw [g10, if_pos (noiseUpdateNext_rising s hu ht)]
      exact noiseShift_recovers _ hz
    refine ⟨hb, fun h0 => ?_⟩
    have h1 : (s'.noise &&& 0x7fff).testBit 0 = Nat.testBit 0 0 := by rw [h0]
    rw [Nat.testBit_and, hb] at h1
    exact absurd h1 (by decide)

/-- The witness of C13: the state `psg_t.playing` with an all-zero register, the tapped sign
bit 3 set and a zero edge history. -/
theorem noise_self_recovery_witness :
    (({ psg_t.playing with noise := 0, sign := 8 } : psg_t).noise &&& 0x7fff = 0 ∧
      ({ psg_t.playing with noise := 0, sign := 8 } : psg_t).noise_update.testBit 0 = false ∧
      ({ psg_t.playing with noise := 0, sign := 8 } : psg_t).sign.testBit
        (3 - (({ psg_t.playing with noise := 0, sign := 8 } : psg_t).noise_type &&& 0x01))
          = true ∧
      ({ psg_t.playing with noise := 0, sign := 8 } : psg_t).cycle ≤ 3) ∧
    (∃ s', PSG_Cycle { psg_t.playing with noise := 0, sign := 8 } = some s') ∧
    ∀ s', PSG_Cycle { psg_t.playing with noise := 0, sign := 8 } = some s' →
      s'.noise.testBit 0 = true ∧ s'.noise &&& 0x7fff ≠ 0 :=
  ⟨by decide,
    (noise_self_recovery { psg_t.playing with noise := 0, sign := 8 } (by decide) (by decide)
      (by decide)).1 (by decide),
    (noise_self_recovery { psg_t.playing with noise := 0, sign := 8 } (by decide) (by decide)
      (by decide)).2⟩

/-- Truncation to 8 bits keeps the low 8 bits. -/
theorem testBit_mod_256 (x : Nat) {i : Nat} (hi : i < 8) :
    (x % 256).testBit i = x.testBit i := by
  have h := Nat.testBit_mod_two_pow x 8 i
  rw [decide_eq_true hi, Bool.true_and] at h
  exact h

/-- A noise configuration write, field by field. -/
theorem PSG_Write_noise_fields (s : psg_t) (d : Nat) (h : latchAfter s d = 6) :
    ∃ s1, PSG_Write s d = some s1 ∧ s1.noise_reset = s.noise_reset ||| 0x01 ∧
      s1.noise_data = d &&& 0x07 ∧ s1.noise = s.noise ∧ s1.cycle = s.cycle ∧
      s1.sign = s.sign ∧ s1.inverse = s.inverse ∧ s1.counter = s.counter := by
  unfold latchAfter at h
  unfold PSG_Write
  by_cases h80 : d &&& 0x80 = 0
  · simp only [h80, ne_eq, not_true_eq_false, if_false] at h ⊢
    by_cases h3 : d &&& 0x03 = 3 <;> simp [h, h3]
  · simp only [h80, ne_eq, not_false_eq_true, if_true] at h ⊢
    by_cases h3 : d &&& 0x03 = 3 <;> simp [h, h3]

/-- C14, as amended: for every chip state (with `cycle` at most 3) and every byte `d` that is
a noise configuration write (effective latch 6), the write sets bit 0 of `noise_reset` and
stores `noise_data = d & 0x07` without touching `noise`; the first `PSG_Cycle` call moves the
flag to bit 1, and after the second call `noise_data` is 0.  The noise shift register is not
reinitialised: each of the two calls leaves `noise` as it was, or shifts it by one position when
the call is a qualifying noise clock. -/
theorem noise_reset_delay (s : psg_t) (d : Nat) (h : latchAfter s d = 6) (hc : s.cycle ≤ 3) :
    ∃ s1 s2 s3, PSG_Write s d = some s1 ∧ PSG_Cycle s1 = some s2 ∧ PSG_Cycle s2 = some s3 ∧
      s1.noise_reset &&& 0x01 ≠ 0 ∧ s1.noise_data = d &&& 0x07 ∧ s1.noise = s.noise ∧
      s2.noise_reset &&& 0x02 ≠ 0 ∧ s3.noise_data = 0 ∧
      s2.noise = (if noiseUpdateNext s1 &&& 0x03 = 0x01 then noiseShift s1.noise_type s1.noise
        else s1.noise) ∧
      s3.noise = (if noiseUpdateNext s2 &&& 0x03 = 0x01 then noiseShift s2.noise_type s2.noise
        else s2.noise) := by
  obtain ⟨s1, w1, w2, w3, w4, w5, -⟩ := PSG_Write_noise_fields s d h
  obtain ⟨_, _, s2, -, -, a3, a4, -, -, -, -, -, a10, -, a12, -⟩ :=
    PSG_Cycle_fields s1 (w5 ▸ hc)
  have hc2 : s2.cycle ≤ 3 := by rw [a4]; omega
  obtain ⟨_, _, s3, -, -, b3, -, -, -, -, -, -, b10, b11, -⟩ := PSG_Cycle_fields s2 hc2
  have hbit0 : s1.noise_reset.testBit 0 = true := by
    rw [w2, Nat.testBit_or, Nat.testBit_one_zero, Bool.or_true]
  have hbit1 : s2.noise_reset.testBit 1 = true := by
    rw [a12, testBit_mod_256 _ (by decide), Nat.testBit_shiftLeft, hbit0]
    rfl
  have m1 : s1.noise_reset &&& 0x01 ≠ 0 := (and_two_pow_ne_zero_iff s1.noise_reset 0).mpr hbit0
  have m2 : s2.noise_reset &&& 0x02 ≠ 0 := (and_two_pow_ne_zero_iff s2.noise_reset 1).mpr hbit1
  refine ⟨s1, s2, s3, w1, a3, b3, m1, w3, w4, m2, ?_, a10, b10⟩
  rw [b11, if_pos m2]

/-- The witness of C14 as amended: the byte `0xE0` on the state `psg_t.playing`. -/
theorem noise_reset_delay_witness :
    (latchAfter psg_t.playing 0xE0 = 6 ∧ psg_t.playing.cycle ≤ 3) ∧
    ∃ s1 s2 s3, PSG_Write psg_t.playing 0xE0 = some s1 ∧ PSG_Cycle s1 = some s2 ∧
      PSG_Cycle s2 = some s3 ∧
      s1.noise_reset &&& 0x01 ≠ 0 ∧ s1.noise_data = 0xE0 &&& 0x07 ∧
      s1.noise = psg_t.playing.noise ∧
      s2.noise_reset &&& 0x02 ≠ 0 ∧ s3.noise_data = 0 ∧
      s2.noise = (if noiseUpdateNext s1 &&& 0x03 = 0x01 then noiseShift s1.noise_type s1.noise
        else s1.noise) ∧
      s3.noise = (if noiseUpdateNext s2 &&& 0x03 = 0x01 then noiseShift s2.noise_type s2.noise
        else s2.noise) :=
  ⟨by decide, noise_reset_delay psg_t.playing 0xE0 (by decide) (by decide)⟩

/-- C14 as stated fails.  On the state `psg_t.playing` (`noise = 0x4000`) the byte `0xE0` is a
noise configuration write; two `PSG_Cycle` calls later `noise_data` is 0 but the noise register
holds `0x8000` (the second call was a qualifying clock and shifted it), not the reset value 0.
The code never stores to `noise` on the reset path. -/
theorem noise_reset_delay_counterexample :
    psg_t.playing.inRange ∧ latchAfter psg_t.playing 0xE0 = 6 ∧
    ∃ s3, (PSG_Write psg_t.playing 0xE0).bind (PSG_Cycles 2) = some s3 ∧
      s3.noise_data = 0 ∧ s3.noise = 0x8000 ∧ s3.noise ≠ 0 :=
  ⟨by decide, by decide, _, rfl, rfl, rfl, by decide⟩

/-- The bit appended to the edge history: bit 3 of `sign` when bit 0 of `noise_type` is clear,
bit 2 when it is set; the older bits move up by one position. -/
theorem noiseUpdateNext_bits (s : psg_t) :
    (noiseUpdateNext s).testBit 0 = s.sign.testBit (if s.noise_type.testBit 0 then 2 else 3) ∧
    ∀ j, j + 1 < 8 → (noiseUpdateNext s).testBit (j + 1) = s.noise_update.testBit j := by
  have hk : 3 - (s.noise_type &&& 0x01) = if s.noise_type.testBit 0 then 2 else 3 := by
    rw [Nat.and_one_is_mod, Nat.testBit_zero]
    by_cases h : s.noise_type % 2 = 1
    · simp [h]
    · have h0 : s.noise_type % 2 = 0 := by omega
      simp [h0]
  unfold noiseUpdateNext
  rw [hk]
  refine ⟨?_, fun j hj => ?_⟩
  · rw [Nat.testBit_or, testBit_mod_256 _ (by decide), Nat.testBit_shiftLeft,
      Nat.testBit_and, Nat.testBit_shiftRight, Nat.testBit_one_zero]
    simp
  · have h1 : Nat.testBit 1 (j + 1) = false := by
      rw [Nat.testBit_succ]
      exact Nat.zero_testBit j
    rw [Nat.testBit_or, testBit_mod_256 _ hj, Nat.testBit_shiftLeft, Nat.testBit_and, h1]
    simp

/-- C15, as amended: in `PSG_Cycle`, for every chip state whose noise configuration selects a
fixed period (bit 0 of `noise_type` clear) the bit appended to the edge history `noise_update`
is bit 3 of `sign`, the polarity of the noise channel's own period counter; in the "derive from
tone channel 3" mode (bit 0 of `noise_type` set) it is bit 2 of `sign`, the polarity of tone
channel 2.  The call returns whenever `cycle` is at most 3, and the older history bits move up
by one position. -/
theorem noise_clock_source (s : psg_t) :
    (s.cycle ≤ 3 → ∃ s', PSG_Cycle s = some s') ∧
    ∀ s', PSG_Cycle s = some s' →
      (s.noise_type.testBit 0 = false → s'.noise_update.testBit 0 = s.sign.testBit 3) ∧
      (s.noise_type.testBit 0 = true → s'.noise_update.testBit 0 = s.sign.testBit 2) ∧
      ∀ j, j + 1 < 8 → s'.noise_update.testBit (j + 1) = s.noise_update.testBit j := by
  refine ⟨fun hc => ?_, fun s' hs => ?_⟩
  · obtain ⟨_, _, s', -, -, h, -⟩ := PSG_Cycle_fields s hc
    exact ⟨s', h⟩
  · obtain ⟨_, _, t, -, -, g3, -, -, -, -, -, g9, -⟩ :=
      PSG_Cycle_fields s (PSG_Cycle_cycle_le hs)
    rw [hs] at g3
    obtain rfl := Option.some.inj g3
    obtain ⟨b0, b1⟩ := noiseUpdateNext_bits s
    rw [g9]
    refine ⟨fun h => ?_, fun h => ?_, b1⟩
    · rw [b0, h]
      rfl
    · rw [b0, h]
      rfl

/-- The witness of C15 as amended: the state `psg_t.playing`, whose `cycle` is 0 and whose
`noise_type` is 0: the appended bit is bit 3 of `sign`. -/
theorem noise_clock_source_witness :
    (psg_t.playing.cycle ≤ 3 ∧ psg_t.playing.noise_type.testBit 0 = false) ∧
    (∃ s', PSG_Cycle psg_t.playing = some s') ∧
    ∃ s', PSG_Cycle psg_t.playing = some s' ∧
      s'.noise_update.testBit 0 = psg_t.playing.sign.testBit 3 :=
  ⟨by decide, (noise_clock_source psg_t.playing).1 (by decide), _, rfl,
    ((noise_clock_source psg_t.playing).2 _ rfl).1 (by decide)⟩

/-- C15 as stated fails.  The state `psg_t.playing` has `noise_type = 0` (fixed period),
`sign = 0b0101` (bit 2 set, bit 3 clear) and `noise_update = 0`; after `PSG_Cycle` the appended
bit, bit 0 of `noise_update`, is 0: it is bit 3 of `sign`, not bit 2. -/
theorem noise_clock_source_counterexample :
    psg_t.playing.inRange ∧ psg_t.playing.noise_type.testBit 0 = false ∧
    psg_t.playing.sign.testBit 2 = true ∧ psg_t.playing.sign.testBit 3 = false ∧
    ∃ s', PSG_Cycle psg_t.playing = some s' ∧ s'.noise_update.testBit 0 = false :=
  ⟨by decide, by decide, by decide, by decide, _, rfl, by decide⟩

/-- The record after `k` calls from a state whose `cycle` is `c <= 3`: all calls return and the
round-robin selector has advanced `k` places. -/
theorem PSG_Cycles_cycle (s : psg_t) (c : Nat) (hc : c ≤ 3) (hcy : s.cycle = c) (k : Nat) :
    ∃ sk, PSG_Cycles k s = some sk ∧ sk.cycle = (c + k) % 4 ∧ sk.freq = s.freq ∧
      sk.noise_type = s.noise_type := by
  induction k with
  | zero => exact ⟨s, rfl, by rw [hcy]; omega, rfl, rfl⟩
  | succ k ih =>
    obtain ⟨sk, e1, e2, e3, e4⟩ := ih
    have hck : sk.cycle ≤ 3 := by rw [e2]; omega
    obtain ⟨_, _, s', -, -, g3, g4, -, -, -, -, -, -, -, -, -, -, -, g16, g17, -⟩ :=
      PSG_Cycle_fields sk hck
    refine ⟨s', ?_, ?_, g16.trans e3, g17.trans e4⟩
    · rw [PSG_Cycles_succ, e1]
      exact g3
    · rw [g4, e2]
      omega

/-- C16: for every chip state with `cycle = c <= 3`, one `PSG_Cycle` call returns, sets `cycle`
to `(c + 1) mod 4`, stores `counter[c]` and modifies no other counter; `k` consecutive calls all
return and end with `cycle = (c + k) mod 4`, the call that follows them storing
`counter[(c + k) mod 4]` and no other counter; and each channel `j` is the one processed by
exactly one of any four consecutive calls. -/
theorem round_robin (s : psg_t) (c : Nat) (hc : c ≤ 3) (hcy : s.cycle = c) :
    (∃ ctr fr s', s.counter.get? c = some ctr ∧ s.freq.get? c = some fr ∧
      PSG_Cycle s = some s' ∧ s'.cycle = (c + 1) % 4 ∧
      s'.counter.get? c = some (((if ctr ≥ fr then 0 else ctr) + 1) % 65536) ∧
      ∀ j, j ≠ c → s'.counter.get? j = s.counter.get? j) ∧
    (∀ k, ∃ sk s', PSG_Cycles k s = some sk ∧ sk.cycle = (c + k) % 4 ∧
      PSG_Cycles (k + 1) s = some s' ∧
      ∀ j, j ≠ (c + k) % 4 → s'.counter.get? j = sk.counter.get? j) ∧
    (∀ j, j ≤ 3 → ∃ k, k < 4 ∧ (c + k) % 4 = j ∧ ∀ k', k' < 4 → (c + k') % 4 = j → k' = k) := by
  refine ⟨?_, fun k => ?_, fun j hj => ?_⟩
  · subst hcy
    obtain ⟨ctr, fr, s', g1, g2, g3, g4, g5, g6, -⟩ := PSG_Cycle_fields s hc
    exact ⟨ctr, fr, s', g1, g2, g3, g4, g5, g6⟩
  · obtain ⟨sk, e1, e2, -⟩ := PSG_Cycles_cycle s c hc hcy k
    have hck : sk.cycle ≤ 3 := by rw [e2]; omega
    obtain ⟨_, _, s', -, -, g3, -, -, g6, -⟩ := PSG_Cycle_fields sk hck
    refine ⟨sk, s', e1, e2, ?_, ?_⟩
    · rw [PSG_Cycles_succ, e1]
      exact g3
    · rw [← e2]
      exact g6
  · refine ⟨(j + 4 - c) % 4, ?_, ?_, fun k' h1 h2 => ?_⟩ <;> omega

/-- The witness of C16: the state `psg_t.atChannel3`, whose `cycle` is 3. -/
theorem round_robin_witness :
    (3 ≤ 3 ∧ psg_t.atChannel3.cycle = 3 ∧ 1 ≤ 3) ∧
    (∃ k, k < 4 ∧ (3 + k) % 4 = 1 ∧ ∀ k', k' < 4 → (3 + k') % 4 = 1 → k' = k) ∧
    ∃ sk s', PSG_Cycles 2 psg_t.atChannel3 = some sk ∧ sk.cycle = (3 + 2) % 4 ∧
      PSG_Cycles (2 + 1) psg_t.atChannel3 = some s' ∧
      ∀ j, j ≠ (3 + 2) % 4 → s'.counter.get? j = sk.counter.get? j :=
  ⟨by decide, (round_robin psg_t.atChannel3 3 (by decide) rfl).2.2 1 (by decide),
    (round_robin psg_t.atChannel3 3 (by decide) rfl).2.1 2⟩

/-- With `latch` at most 7 every byte is accepted by `PSG_Write`. -/
theorem PSG_Write_defined (s : psg_t) (d : Nat) (hl : s.latch ≤ 7) :
    ∃ s', PSG_Write s d = some s' := by
  have hL : (d >>> 4) &&& 0x07 ≤ 7 := Nat.and_le_right
  obtain ⟨latch, volume, output, freq, counter, sign, noise_data, noise_reset, noise_update,
    noise_type, noise, inverse, cycle, debug⟩ := s
  simp only at hl
  unfold PSG_Write
  by_cases h80 : d &&& 0x80 = 0
  · simp only [h80, ne_eq, not_true_eq_false, if_false]
    interval_cases latch <;> simp [Arr4.set?, Arr4.get?]
  · simp only [h80, ne_eq, not_false_eq_true, if_true]
    generalize (d >>> 4) &&& 0x07 = L at hL
    interval_cases L <;> simp [Arr4.set?, Arr4.get?]

/-- The fields `PSG_Write` never stores to. -/
theorem PSG_Write_frame {s s' : psg_t} {d : Nat} (h : PSG_Write s d = some s') :
    s'.counter = s.counter ∧ s'.sign = s.sign ∧ s'.inverse = s.inverse ∧ s'.noise = s.noise ∧
      s'.cycle = s.cycle ∧ s'.debug = s.debug ∧ s'.output = s.output ∧
      s'.noise_update = s.noise_update ∧ s'.latch = latchAfter s d := by
  unfold PSG_Write at h
  unfold latchAfter
  by_cases h80 : d &&& 0x80 = 0
  · simp only [h80, ne_eq, not_true_eq_false, if_false] at h ⊢
    split_ifs at h <;> first
      | (obtain rfl := Option.some.inj h
         exact ⟨rfl, rfl, rfl, rfl, rfl, rfl, rfl, rfl, rfl⟩)
      | (simp only [Option.map_eq_some'] at h
         obtain ⟨v, -, rfl⟩ := h
         exact ⟨rfl, rfl, rfl, rfl, rfl, rfl, rfl, rfl, rfl⟩)
      | (simp only [Option.bind_eq_bind, Option.bind_eq_some] at h
         obtain ⟨_, -, _, -, h⟩ := h
         obtain rfl := Option.some.inj h
         exact ⟨rfl, rfl, rfl, rfl, rfl, rfl, rfl, rfl, rfl⟩)
  · simp only [h80, ne_eq, not_false_eq_true, if_true] at h ⊢
    split_ifs at h <;> first
      | (obtain rfl := Option.some.inj h
         exact ⟨rfl, rfl, rfl, rfl, rfl, rfl, rfl, rfl, rfl⟩)
      | (simp only [Option.map_eq_some'] at h
         obtain ⟨v, -, rfl⟩ := h
         exact ⟨rfl, rfl, rfl, rfl, rfl, rfl, rfl, rfl, rfl⟩)
      | (simp only [Option.bind_eq_bind, Option.bind_eq_some] at h
         obtain ⟨_, -, _, -, h⟩ := h
         obtain rfl := Option.some.inj h
         exact ⟨rfl, rfl, rfl, rfl, rfl, rfl, rfl, rfl, rfl⟩)

/-- The fields `PSG_UpdateSample` never stores to: every field but `output`. -/
theorem PSG_UpdateSample_frame (s : psg_t) :
    ∃ o, PSG_UpdateSample s = { s with output := o } := by
  by_cases hd : s.debug &&& 0x01 = 0
  · exact ⟨_, PSG_UpdateSample_normal s hd⟩
  · exact ⟨_, PSG_UpdateSample_debug s hd⟩

/-- C17: for every chip state, `PSG_Cycle`, `PSG_Read`, `PSG_GetSample` and `PSG_SetDebugBits`
leave `volume` and `freq` unchanged, and `PSG_Write` (for every byte), `PSG_Read`,
`PSG_GetSample` and `PSG_SetDebugBits` leave `counter`, `sign`, `inverse` and `noise`
unchanged.  The operations return: `PSG_Cycle` when `cycle` is at most 3, `PSG_Write` when
`latch` is at most 7, `PSG_GetSample` when the volumes are at most 15 and `debug` at most 7. -/
theorem write_sets (s : psg_t) :
    (∀ s', PSG_Cycle s = some s' → s'.volume = s.volume ∧ s'.freq = s.freq) ∧
    ((PSG_Read s).2.volume = s.volume ∧ (PSG_Read s).2.freq = s.freq) ∧
    (∀ x s', PSG_GetSample s = some (x, s') → s'.volume = s.volume ∧ s'.freq = s.freq) ∧
    (∀ w, (PSG_SetDebugBits s w).volume = s.volume ∧ (PSG_SetDebugBits s w).freq = s.freq) ∧
    (∀ d s', PSG_Write s d = some s' →
      s'.counter = s.counter ∧ s'.sign = s.sign ∧ s'.inverse = s.inverse ∧
        s'.noise = s.noise) ∧
    ((PSG_Read s).2.counter = s.counter ∧ (PSG_Read s).2.sign = s.sign ∧
      (PSG_Read s).2.inverse = s.inverse ∧ (PSG_Read s).2.noise = s.noise) ∧
    (∀ x s', PSG_GetSample s = some (x, s') →
      s'.counter = s.counter ∧ s'.sign = s.sign ∧ s'.inverse = s.inverse ∧
        s'.noise = s.noise) ∧
    (∀ w, (PSG_SetDebugBits s w).counter = s.counter ∧ (PSG_SetDebugBits s w).sign = s.sign ∧
      (PSG_SetDebugBits s w).inverse = s.inverse ∧ (PSG_SetDebugBits s w).noise = s.noise) ∧
    (s.cycle ≤ 3 → ∃ s', PSG_Cycle s = some s') ∧
    (s.latch ≤ 7 → ∀ d, ∃ s', PSG_Write s d = some s') ∧
    (s.volume.below 16 → s.debug ≤ 7 → ∃ x s', PSG_GetSample s = some (x, s')) := by
  obtain ⟨o, ho⟩ := PSG_UpdateSample_frame s
  have hread : (PSG_Read s).2 = { s with output := o } := ho
  refine ⟨fun s' hs => ?_, ?_, fun x s' hs => ?_, fun w => ⟨rfl, rfl⟩, fun d s' hs => ?_, ?_,
    fun x s' hs => ?_, fun w => ⟨rfl, rfl, rfl, rfl⟩, fun hc => ?_, fun hl d => ?_,
    fun hv hd => ?_⟩
  · obtain ⟨_, _, t, -, -, g3, -, -, -, -, -, -, -, -, -, -, g14, -, g16, -⟩ :=
      PSG_Cycle_fields s (PSG_Cycle_cycle_le hs)
    rw [hs] at g3
    obtain rfl := Option.some.inj g3
    exact ⟨g14, g16⟩
  · rw [hread]
    exact ⟨rfl, rfl⟩
  · rw [PSG_GetSample_state s x s' hs, ho]
    exact ⟨rfl, rfl⟩
  · obtain ⟨h1, h2, h3, h4, -⟩ := PSG_Write_frame hs
    exact ⟨h1, h2, h3, h4⟩
  · rw [hread]
    exact ⟨rfl, rfl, rfl, rfl⟩
  · rw [PSG_GetSample_state s x s' hs, ho]
    exact ⟨rfl, rfl, rfl, rfl⟩
  · obtain ⟨_, _, s', -, -, h, -⟩ := PSG_Cycle_fields s hc
    exact ⟨s', h⟩
  · exact PSG_Write_defined s d hl
  · obtain ⟨x, hx⟩ := PSG_GetSample_defined s hv hd
    exact ⟨x, _, hx⟩

/-- The witness of C17: on the state `psg_t.playing` the three partial operations return. -/
theorem write_sets_witness :
    (psg_t.playing.cycle ≤ 3 ∧ psg_t.playing.latch ≤ 7 ∧ psg_t.playing.volume.below 16 ∧
      psg_t.playing.debug ≤ 7) ∧
    (∃ s', PSG_Cycle psg_t.playing = some s') ∧
    (∀ d, ∃ s', PSG_Write psg_t.playing d = some s') ∧
    (∃ x s', PSG_GetSample psg_t.playing = some (x, s')) ∧
    (∃ s', PSG_Write psg_t.playing 0x9a = some s' ∧ s'.counter = psg_t.playing.counter ∧
      s'.sign = psg_t.playing.sign ∧ s'.inverse = psg_t.playing.inverse ∧
      s'.noise = psg_t.playing.noise) :=
  ⟨by decide, (write_sets psg_t.playing).2.2.2.2.2.2.2.2.1 (by decide),
    (write_sets psg_t.playing).2.2.2.2.2.2.2.2.2.1 (by decide),
    (write_sets psg_t.playing).2.2.2.2.2.2.2.2.2.2 (by decide) (by decide),
    _, rfl, (write_sets psg_t.playing).2.2.2.2.1 0x9a _ rfl⟩

/-- The three ways `PSG_Write` can return: a volume write, a tone frequency write or a noise
configuration write, each with the record it leaves. -/
theorem PSG_Write_cases {s s' : psg_t} {d : Nat} (h : PSG_Write s d = some s') :
    (latchAfter s d &&& 0x01 ≠ 0 ∧
      ∃ v, s.volume.set? (latchAfter s d >>> 1) (d &&& 0x0f) = some v ∧
        s' = { s with latch := latchAfter s d, volume := v }) ∨
    (latchAfter s d >>> 1 ≠ 3 ∧
      ∃ f fr, s.freq.get? (latchAfter s d >>> 1) = some f ∧
        s.freq.set? (latchAfter s d >>> 1)
          (if d &&& 0x80 ≠ 0 then (f &&& 0x3f0) ||| (d &&& 0x0f)
            else (f &&& 0x0f) ||| ((d <<< 4) &&& 0x3f0)) = some fr ∧
        s' = { s with latch := latchAfter s d, freq := fr }) ∨
    (s' = { s with
        latch := latchAfter s d,
        noise_reset := s.noise_reset ||| 0x01,
        noise_data := d &&& 0x07,
        noise_type :=
          (if d &&& 0x03 ≠ 3 then 0 else 0 ||| 0x01) ||| ((d >>> 1) &&& 0x02),
        freq := { s.freq with e3 := if d &&& 0x03 ≠ 3 then 0x10 <<< (d &&& 0x03) else 0 } }) := by
  unfold PSG_Write at h
  unfold latchAfter
  by_cases h80 : d &&& 0x80 = 0
  · simp only [h80, ne_eq, not_true_eq_false, if_false] at h ⊢
    split_ifs at h with a1 a2 a3 <;> first
      | (obtain rfl := Option.some.inj h
         exact Or.inr (Or.inr (by simp only [a3, ne_eq, not_true_eq_false, not_false_eq_true,
           if_true, if_false])))
      | (simp only [Option.map_eq_some'] at h
         obtain ⟨v, hv, rfl⟩ := h
         exact Or.inl ⟨a1, v, hv, rfl⟩)
      | (simp only [Option.bind_eq_bind, Option.bind_eq_some] at h
         obtain ⟨f, hf, fr, hfr, h⟩ := h
         obtain rfl := Option.some.inj h
         exact Or.inr (Or.inl ⟨a2, f, fr, hf, hfr, rfl⟩))
  · simp only [h80, ne_eq, not_false_eq_true, if_true] at h ⊢
    split_ifs at h with a1 a2 a3 <;> first
      | (obtain rfl := Option.some.inj h
         exact Or.inr (Or.inr (by simp only [a3, ne_eq, not_true_eq_false, not_false_eq_true,
           if_true, if_false])))
      | (simp only [Option.map_eq_some'] at h
         obtain ⟨v, hv, rfl⟩ := h
         exact Or.inl ⟨a1, v, hv, rfl⟩)
      | (simp only [Option.bind_eq_bind, Option.bind_eq_some] at h
         obtain ⟨f, hf, fr, hfr, h⟩ := h
         obtain rfl := Option.some.inj h
         exact Or.inr (Or.inl ⟨a2, f, fr, hf, hfr, rfl⟩))

/-- A bound on every element, read through `get?`. -/
theorem Arr4.below_iff (a : Arr4) (b : Nat) :
    a.below b ↔ ∀ j v, a.get? j = some v → v < b := by
  constructor
  · rintro ⟨h0, h1, h2, h3⟩ j v hv
    rcases j with _ | _ | _ | _ | j <;> simp [Arr4.get?] at hv <;> omega
  · intro h
    exact ⟨h 0 _ rfl, h 1 _ rfl, h 2 _ rfl, h 3 _ rfl⟩

/-- A store of a value below the bound keeps the bound. -/
theorem Arr4.below_set? {a a' : Arr4} {b i v : Nat} (ha : a.below b) (hv : v < b)
    (h : a.set? i v = some a') : a'.below b := by
  obtain ⟨g1, g2⟩ := Arr4.get?_set? h
  rw [Arr4.below_iff] at ha ⊢
  intro j w hw
  by_cases hj : j = i
  · subst hj
    rw [g1] at hw
    obtain rfl := Option.some.inj hw
    exact hv
  · rw [g2 j hj] at hw
    exact ha j w hw

/-- Both halves of a tone frequency write leave a 10-bit value. -/
theorem freq_write_le (f d : Nat) :
    (f &&& 0x3f0) ||| (d &&& 0x0f) ≤ 0x3ff ∧ (f &&& 0x0f) ||| ((d <<< 4) &&& 0x3f0) ≤ 0x3ff := by
  have h1 : f &&& 0x3f0 < 2 ^ 10 := Nat.lt_of_le_of_lt Nat.and_le_right (by decide)
  have h2 : d &&& 0x0f < 2 ^ 10 := Nat.lt_of_le_of_lt Nat.and_le_right (by decide)
  have h3 : f &&& 0x0f < 2 ^ 10 := Nat.lt_of_le_of_lt Nat.and_le_right (by decide)
  have h4 : (d <<< 4) &&& 0x3f0 < 2 ^ 10 := Nat.lt_of_le_of_lt Nat.and_le_right (by decide)
  have a := Nat.or_lt_two_pow h1 h2
  have b := Nat.or_lt_two_pow h3 h4
  constructor <;> omega

/-- The period and mode a noise configuration write stores. -/
theorem noise_write_period (d : Nat) :
    let e3 := if d &&& 0x03 ≠ 3 then 0x10 <<< (d &&& 0x03) else 0
    let nt := (if d &&& 0x03 ≠ 3 then 0 else 0 ||| 0x01) ||| ((d >>> 1) &&& 0x02)
    (e3 = 0 ∨ e3 = 0x10 ∨ e3 = 0x20 ∨ e3 = 0x40) ∧ (e3 = 0 ↔ nt.testBit 0 = true) := by
  intro e3 nt
  have hlt : d &&& 0x03 < 4 := Nat.lt_of_le_of_lt Nat.and_le_right (by decide)
  have hb : ((d >>> 1) &&& 0x02).testBit 0 = false := by
    rw [Nat.testBit_and]
    have : Nat.testBit 2 0 = false := by decide
    rw [this, Bool.and_false]
  have hnt : nt.testBit 0 = decide (d &&& 0x03 = 3) := by
    simp only [nt]
    rw [Nat.testBit_or, hb, Bool.or_false]
    split_ifs with h
    · rw [Nat.zero_testBit]
      simp [h]
    · simp only [ne_eq, Decidable.not_not] at h
      simp [h]
  rw [hnt]
  simp only [e3]
  generalize d &&& 0x03 = q at hlt
  interval_cases q <;> simp

theorem latchAfter_le {s : psg_t} (d : Nat) (hl : s.latch ≤ 7) : latchAfter s d ≤ 7 := by
  unfold latchAfter
  split_ifs
  · exact Nat.and_le_right
  · exact hl

/-- The record `PSG_Reset` leaves satisfies the bounds. -/
theorem invariant_reset (s : psg_t) : (PSG_Reset s).invariant := by
  have h : PSG_Reset s = PSG_Reset psg_t.zero := rfl
  rw [h]
  decide

/-- A record `PSG_Write` returns satisfies the bounds when the one it started from did. -/
theorem invariant_write {s s' : psg_t} {d : Nat} (hi : s.invariant)
    (h : PSG_Write s d = some s') : s'.invariant := by
  obtain ⟨i1, i2, i3, i4, i5, i6, i7, i8, i9, i10, i11⟩ := hi
  have hL := latchAfter_le d i1
  rcases PSG_Write_cases h with ⟨-, v, hv, rfl⟩ | ⟨hne, f, fr, hf, hfr, rfl⟩ | rfl
  · exact ⟨hL, i2, i3, Arr4.below_set? i4 (and_0x0f_lt d) hv, i5, i6, i7, i8, i9, i10, i11⟩
  · have hval : (if d &&& 0x80 ≠ 0 then (f &&& 0x3f0) ||| (d &&& 0x0f)
        else (f &&& 0x0f) ||| ((d <<< 4) &&& 0x3f0)) ≤ 0x3ff := by
      split_ifs
      · exact (freq_write_le f d).1
      · exact (freq_write_le f d).2
    generalize (if d &&& 0x80 ≠ 0 then (f &&& 0x3f0) ||| (d &&& 0x0f)
        else (f &&& 0x0f) ||| ((d <<< 4) &&& 0x3f0)) = val at hval hfr
    generalize latchAfter s d >>> 1 = i at hne hfr hf
    obtain ⟨b0, b1, b2⟩ := i8
    rcases i with _ | _ | _ | _ | i
    · obtain rfl := Option.some.inj hfr
      exact ⟨hL, i2, i3, i4, i5, i6, i7, ⟨hval, b1, b2⟩, i9, i10, i11⟩
    · obtain rfl := Option.some.inj hfr
      exact ⟨hL, i2, i3, i4, i5, i6, i7, ⟨b0, hval, b2⟩, i9, i10, i11⟩
    · obtain rfl := Option.some.inj hfr
      exact ⟨hL, i2, i3, i4, i5, i6, i7, ⟨b0, b1, hval⟩, i9, i10, i11⟩
    · exact absurd rfl hne
    · exact absurd hfr (by simp [Arr4.set?])
  · obtain ⟨n1, n2⟩ := noise_write_period d
    exact ⟨hL, i2, i3, i4, i5, i6, i7, i8, i9, n1, n2⟩

/-- The record `PSG_UpdateSample` leaves satisfies the bounds when the one it started from
did. -/
theorem invariant_update {s : psg_t} (hi : s.invariant) : (PSG_UpdateSample s).invariant := by
  obtain ⟨i1, i2, i3, i4, i5, i6, i7, i8, i9, i10, i11⟩ := hi
  obtain ⟨v0, v1, v2, v3⟩ := i4
  by_cases hd : s.debug &&& 0x01 = 0
  · rw [PSG_UpdateSample_normal s hd]
    refine ⟨i1, i2, i3, ⟨v0, v1, v2, v3⟩, ⟨?_, ?_, ?_, ?_⟩, i6, i7, i8, i9, i10, i11⟩ <;>
      (simp only; split_ifs <;> omega)
  · rw [PSG_UpdateSample_debug s hd]
    exact ⟨i1, i2, i3, ⟨v0, v1, v2, v3⟩, ⟨v0, v1, v2, v3⟩, i6, i7, i8, i9, i10, i11⟩

/-- Every programmed period is a 10-bit value. -/
theorem invariant_freq_le {s : psg_t} (hi : s.invariant) {j fr : Nat}
    (h : s.freq.get? j = some fr) : fr ≤ 0x3ff := by
  obtain ⟨-, -, -, -, -, -, -, ⟨b0, b1, b2⟩, -, i10, -⟩ := hi
  rcases j with _ | _ | _ | _ | j <;> simp [Arr4.get?] at h <;> omega

/-- A record `PSG_Cycle` returns satisfies the bounds when the one it started from did. -/
theorem invariant_cycle {s s' : psg_t} (hi : s.invariant) (h : PSG_Cycle s = some s') :
    s'.invariant := by
  have hi' := hi
  obtain ⟨i1, i2, i3, i4, i5, i6, i7, i8, i9, i10, i11⟩ := hi
  obtain ⟨ctr, fr, t, g1, g2, g3, g4, g5, g6, g7, g8, -, -, -, -, g13, g14, g15, g16, g17,
    g18⟩ := PSG_Cycle_fields s i2
  rw [h] at g3
  obtain rfl := Option.some.inj g3
  have hfr := invariant_freq_le hi' g2
  have hctr : ctr < 0x400 := (Arr4.below_iff _ _).mp i9 _ _ g1
  have hbit : 1 <<< s.cycle < 2 ^ 4 := by
    generalize s.cycle = c at i2
    interval_cases c <;> decide
  have hinv0 : (if s.cycle = 0 then 0 else s.inverse) < 2 ^ 4 := by
    split_ifs <;> omega
  refine ⟨g13 ▸ i1, ?_, g18 ▸ i3, g14 ▸ i4, g15 ▸ i5, ?_, ?_, g16 ▸ i8, ?_, g16 ▸ i10, ?_⟩
  · rw [g4]
    omega
  · rw [g7]
    split_ifs
    · have := Nat.xor_lt_two_pow (n := 4) (x := s.sign) (y := s.inverse) (by omega) (by omega)
      omega
    · exact i6
  · rw [g8]
    by_cases hov : ctr ≥ fr
    · rw [if_pos hov]
      have h1 := Nat.or_lt_two_pow hinv0 hbit
      have h2 := Nat.mod_le ((if s.cycle = 0 then 0 else s.inverse) ||| 1 <<< s.cycle) 256
      omega
    · rw [if_neg hov]
      omega
  · rw [Arr4.below_iff]
    intro j v hv
    by_cases hj : j = s.cycle
    · subst hj
      rw [g5] at hv
      obtain rfl := Option.some.inj hv
      split_ifs <;> omega
    · rw [g6 j hj] at hv
      exact (Arr4.below_iff _ _).mp i9 j v hv
  · rw [g16, g17]
    exact i11

/-- From a record that satisfies the bounds every sequence of operations runs to the end, and
the record it leaves satisfies the bounds. -/
theorem run_invariant (ops : List Op) :
    ∀ s : psg_t, s.invariant → ∃ s', run s ops = some s' ∧ s'.invariant := by
  induction ops with
  | nil => exact fun s hs => ⟨s, rfl, hs⟩
  | cons op ops ih =>
    intro s hs
    have hstep : ∃ t, op.apply s = some t ∧ t.invariant := by
      cases op with
      | write d =>
        obtain ⟨t, ht⟩ := PSG_Write_defined s d hs.1
        exact ⟨t, ht, invariant_write hs ht⟩
      | cycle =>
        obtain ⟨_, _, t, -, -, ht, -⟩ := PSG_Cycle_fields s hs.2.1
        exact ⟨t, ht, invariant_cycle hs ht⟩
      | read => exact ⟨_, rfl, invariant_update hs⟩
      | getSample =>
        obtain ⟨x, hx⟩ := PSG_GetSample_defined s hs.2.2.2.1 hs.2.2.1
        refine ⟨PSG_UpdateSample s, ?_, invariant_update hs⟩
        simp only [Op.apply, hx, Option.map_some']
      | setDebugBits w =>
        obtain ⟨i1, i2, -, i4, i5, i6, i7, i8, i9, i10, i11⟩ := hs
        exact ⟨_, rfl, i1, i2, Nat.and_le_right, i4, i5, i6, i7, i8, i9, i10, i11⟩
    obtain ⟨t, ht, hti⟩ := hstep
    obtain ⟨s', hs', hi'⟩ := ih t hti
    refine ⟨s', ?_, hi'⟩
    simp only [run, ht, Option.some_bind]
    exact hs'

/-- C18: every sequence of `PSG_Write` (any byte), `PSG_Cycle`, `PSG_Read`, `PSG_GetSample` and
`PSG_SetDebugBits` (any word) applied after `PSG_Reset` runs to the end, and the record it
leaves satisfies `latch <= 7`, `cycle <= 3`, `debug <= 7`, volumes, outputs, `sign` and
`inverse` at most 15, `freq[0..2]` and every counter at most `0x3ff`, and `freq[3]` one of 0,
`0x10`, `0x20`, `0x40`, being 0 exactly when bit 0 of `noise_type` is set.  Every array index
the operations use in that record is inside its array: `latch >> 1` (before and after the
latch update of a write), `cycle`, `debug >> 1` and the refreshed outputs, so `PSG_Write`,
`PSG_Cycle` and `PSG_GetSample` all return. -/
theorem reachable_invariant (s0 : psg_t) (ops : List Op) :
    ∃ s, run (PSG_Reset s0) ops = some s ∧ s.invariant ∧
      (s.latch >>> 1 ≤ 3 ∧ s.cycle ≤ 3 ∧ s.debug >>> 1 ≤ 3 ∧
        (PSG_UpdateSample s).output.below 17) ∧
      (∀ d, latchAfter s d >>> 1 ≤ 3 ∧ ∃ s', PSG_Write s d = some s') ∧
      (∃ s', PSG_Cycle s = some s') ∧
      (∃ x, PSG_GetSample s = some (x, PSG_UpdateSample s)) := by
  obtain ⟨s, hs, hi⟩ := run_invariant ops (PSG_Reset s0) (invariant_reset s0)
  have hu := invariant_update hi
  have hi' := hi
  obtain ⟨i1, i2, i3, i4, -⟩ := hi
  obtain ⟨o0, o1, o2, o3⟩ := hu.2.2.2.2.1
  have hsh : ∀ x : Nat, x ≤ 7 → x >>> 1 ≤ 3 := by
    intro x hx
    rw [Nat.shiftRight_eq_div_pow]
    omega
  refine ⟨s, hs, hi', ⟨hsh _ i1, i2, hsh _ i3, ?_⟩, fun d => ?_, ?_, ?_⟩
  · exact ⟨by omega, by omega, by omega, by omega⟩
  · exact ⟨hsh _ (latchAfter_le d i1), PSG_Write_defined s d i1⟩
  · obtain ⟨_, _, t, -, -, ht, -⟩ := PSG_Cycle_fields s i2
    exact ⟨t, ht⟩
  · exact PSG_GetSample_defined s i4 i3

theorem succ_mod_eq (a : Nat) {P : Nat} (hP : 1 ≤ P) :
    (a + 1) % P = if a % P + 1 = P then 0 else a % P + 1 := by
  have h1 : a % P < P := Nat.mod_lt a (by omega)
  rw [Nat.add_mod_eq_ite]
  by_cases hP1 : P = 1
  · subst hP1
    simp [Nat.mod_one]
  · have h2 : 1 % P = 1 := Nat.mod_eq_of_lt (by omega)
    rw [h2]
    split_ifs <;> omega

/-- The arithmetic of a period counter that restarts at 1: with `P = max N 1`, the value
`a mod P + 1` has reached `N` exactly when `a + 1` is a multiple of `P`, and the next value is
`(a + 1) mod P + 1`. -/
theorem period_arith (N a : Nat) :
    (a % (max N 1) + 1 ≥ N ↔ (a + 1) % (max N 1) = 0) ∧
    (if a % (max N 1) + 1 ≥ N then 1 else a % (max N 1) + 1 + 1) = (a + 1) % (max N 1) + 1 := by
  have hP : 1 ≤ max N 1 := by omega
  have h1 : a % (max N 1) < max N 1 := Nat.mod_lt a (by omega)
  have h2 := succ_mod_eq a hP
  constructor
  · split_ifs at h2 <;> omega
  · split_ifs at h2 ⊢ <;> omega

/-- The period counter of channel `c` along consecutive calls that start with an overflow of
channel `c`: after `m >= 1` calls it holds `((m - 1) / 4) mod P + 1` with `P = max N 1`. -/
theorem channel_counter_trajectory (s : psg_t) (c N x : Nat) (hc : c ≤ 3) (hcy : s.cycle = c)
    (hN : s.freq.get? c = some N) (hlt : N < 65536) (hx : s.counter.get? c = some x)
    (hge : x ≥ N) (m : Nat) :
    ∃ sm, PSG_Cycles m s = some sm ∧ sm.cycle = (c + m) % 4 ∧ sm.freq.get? c = some N ∧
      sm.counter.get? c = some (if m = 0 then x else ((m - 1) / 4) % (max N 1) + 1) := by
  induction m with
  | zero => exact ⟨s, rfl, by rw [hcy]; omega, hN, by simpa using hx⟩
  | succ m ih =>
    obtain ⟨sm, e1, e2, e3, e4⟩ := ih
    have hcm : sm.cycle ≤ 3 := by rw [e2]; omega
    obtain ⟨ctr, fr, s', g1, g2, g3, g4, g5, g6, -, -, -, -, -, -, -, -, -, g16, -⟩ :=
      PSG_Cycle_fields sm hcm
    refine ⟨s', ?_, ?_, ?_, ?_⟩
    · rw [PSG_Cycles_succ, e1]
      exact g3
    · rw [g4, e2]
      omega
    · rw [g16]
      exact e3
    · rw [if_neg (Nat.succ_ne_zero m), Nat.add_sub_cancel]
      by_cases hm4 : m % 4 = 0
      · have hsc : sm.cycle = c := by rw [e2]; omega
        rw [hsc] at g1 g2 g5
        rw [e3] at g2
        rw [e4] at g1
        obtain rfl := Option.some.inj g2
        obtain rfl := Option.some.inj g1
        rw [g5]
        by_cases hm0 : m = 0
        · subst hm0
          simp only [if_true, hge, Nat.zero_div, Nat.zero_mod]
        · simp only [hm0, if_false]
          have hq : m / 4 = (m - 1) / 4 + 1 := by omega
          obtain ⟨-, a2⟩ := period_arith N ((m - 1) / 4)
          have hb : ((m - 1) / 4) % (max N 1) < max N 1 := Nat.mod_lt _ (by omega)
          rw [hq, ← a2]
          split_ifs with hov
          · rfl
          · rw [Nat.mod_eq_of_lt]
            omega
      · have hne : c ≠ sm.cycle := by rw [e2]; omega
        rw [g6 c hne, e4]
        have hm0 : m ≠ 0 := by omega
        have hq : m / 4 = (m - 1) / 4 := by omega
        rw [if_neg hm0, hq]

/-- C19: for every channel `c <= 3` with programmed value `N = freq[c]` (a 16-bit value) and
`P = max(N, 1)`, starting from any state with `cycle = c` and `counter[c] >= N` and applying
only `PSG_Cycle` calls, every call returns, and call number `n` (counted from 1) takes the
overflow branch for channel `c` if and only if `n = 1 + 4*P*k` for some `k`: a flip is
requested once every `4*P` ticks, and a programmed period of 0 behaves like a period of 1. -/
theorem half_period (s : psg_t) (c N : Nat) (hc : c ≤ 3) (hcy : s.cycle = c)
    (hN : s.freq.get? c = some N) (hlt : N < 65536)
    (hov : ∃ x, s.counter.get? c = some x ∧ x ≥ N) (n : Nat) (hn : 1 ≤ n) :
    ∃ sp, PSG_Cycles (n - 1) s = some sp ∧
      (overflowsAt c sp ↔ ∃ k, n = 1 + 4 * (max N 1) * k) := by
  obtain ⟨x, hx, hge⟩ := hov
  obtain ⟨sp, e1, e2, e3, e4⟩ := channel_counter_trajectory s c N x hc hcy hN hlt hx hge (n - 1)
  refine ⟨sp, e1, ?_⟩
  obtain ⟨m, rfl⟩ : ∃ m, n = m + 1 := ⟨n - 1, by omega⟩
  rw [Nat.add_sub_cancel] at e2 e4
  constructor
  · rintro ⟨hcyc, ctr, fr, h1, h2, hge'⟩
    rw [e3] at h2
    rw [e4] at h1
    obtain rfl := Option.some.inj h2
    obtain rfl := Option.some.inj h1
    have hm4 : m % 4 = 0 := by rw [e2] at hcyc; omega
    by_cases hm0 : m = 0
    · exact ⟨0, by omega⟩
    · rw [if_neg hm0] at hge'
      have hq : (m - 1) / 4 + 1 = m / 4 := by omega
      have h0 := (period_arith N ((m - 1) / 4)).1.mp hge'
      rw [hq] at h0
      obtain ⟨k, hk⟩ := Nat.dvd_of_mod_eq_zero h0
      refine ⟨k, ?_⟩
      rw [Nat.mul_assoc, ← hk]
      omega
  · rintro ⟨k, hk⟩
    rw [Nat.mul_assoc] at hk
    have hm : m = 4 * (max N 1 * k) := by omega
    have hm4 : m % 4 = 0 := by omega
    refine ⟨by rw [e2]; omega, _, N, e4, e3, ?_⟩
    by_cases hm0 : m = 0
    · rw [if_pos hm0]
      exact hge
    · rw [if_neg hm0]
      have hq : (m - 1) / 4 + 1 = max N 1 * k := by omega
      apply (period_arith N ((m - 1) / 4)).1.mpr
      rw [hq]
      exact Nat.mul_mod_right _ _

/-- The witness of C19: channel 3 of the state `psg_t.atChannel3` (`freq[3] = 0`, so `P = 1`),
fifth call. -/
theorem half_period_witness :
    (3 ≤ 3 ∧ psg_t.atChannel3.cycle = 3 ∧ psg_t.atChannel3.freq.get? 3 = some 0 ∧
      0 < 65536 ∧ (∃ x, psg_t.atChannel3.counter.get? 3 = some x ∧ x ≥ 0) ∧ 1 ≤ 5) ∧
    ∃ sp, PSG_Cycles (5 - 1) psg_t.atChannel3 = some sp ∧
      (overflowsAt 3 sp ↔ ∃ k, 5 = 1 + 4 * (max 0 1) * k) :=
  ⟨⟨by decide, rfl, rfl, by decide, ⟨0, rfl, by decide⟩, by decide⟩,
    half_period psg_t.atChannel3 3 0 (by decide) rfl rfl (by decide) ⟨0, rfl, by decide⟩ 5
      (by decide)⟩

/-- Without feedback (bit 1 of `noise_type` clear) a qualifying clock maps 0 to 1 and rotates a
one-hot value by one position, bit 15 wrapping to bit 0. -/
theorem noiseShift_periodic {noise_type : Nat} (h : noise_type &&& 0x02 = 0) :
    noiseShift noise_type 0 = 1 ∧
    ∀ k, k ≤ 15 → noiseShift noise_type (1 <<< k) = 1 <<< ((k + 1) % 16) := by
  unfold noiseShift
  simp only [h, ne_eq, not_true_eq_false, if_false]
  refine ⟨by decide, fun k hk => ?_⟩
  interval_cases k <;> decide

theorem noiseShift_oneHotAfter {noise_type : Nat} (h : noise_type &&& 0x02 = 0) (q : Nat) :
    noiseShift noise_type (oneHotAfter q) = oneHotAfter (q + 1) := by
  obtain ⟨h0, hk⟩ := noiseShift_periodic h
  unfold oneHotAfter
  rw [if_neg (Nat.succ_ne_zero q), Nat.add_sub_cancel]
  by_cases hq : q = 0
  · subst hq
    rw [if_pos rfl, h0]
    rfl
  · rw [if_neg hq, hk _ (by omega)]
    have : ((q - 1) % 16 + 1) % 16 = q % 16 := by omega
    rw [this]

/-- The values of the rotation: one-hot from the first clock on, equal exactly when the clock
counts agree modulo 16, with bit 14 set exactly when the count is 15 modulo 16. -/
theorem oneHotAfter_facts (q : Nat) (hq : 1 ≤ q) :
    (∃ k, k ≤ 15 ∧ oneHotAfter q = 1 <<< k) ∧
    (∀ q', 1 ≤ q' → (oneHotAfter q' = oneHotAfter q ↔ q' % 16 = q % 16)) ∧
    ((oneHotAfter q).testBit 14 = true ↔ q % 16 = 15) := by
  have hinj : ∀ a, a < 16 → ∀ b, b < 16 → (1 <<< a = 1 <<< b ↔ a = b) := by decide
  have hbit : ∀ a, a < 16 → ((1 <<< a).testBit 14 = true ↔ a = 14) := by decide
  have hne : q ≠ 0 := by omega
  unfold oneHotAfter
  rw [if_neg hne]
  refine ⟨⟨_, by omega, rfl⟩, fun q' hq' => ?_, ?_⟩
  · have hne' : q' ≠ 0 := by omega
    rw [if_neg hne', hinj _ (by omega) _ (by omega)]
    omega
  · rw [hbit _ (by omega)]
    omega

/-- The noise register along consecutive calls without feedback, started from 0: it holds the
rotation value for the number of qualifying clocks so far. -/
theorem noise_trajectory (s : psg_t) (hty : s.noise_type &&& 0x02 = 0) (hc : s.cycle ≤ 3)
    (h0 : s.noise = 0) (n : Nat) :
    ∃ sn, PSG_Cycles n s = some sn ∧ sn.cycle ≤ 3 ∧ sn.noise_type = s.noise_type ∧
      sn.noise = oneHotAfter (noiseClockCount n s) := by
  induction n with
  | zero => exact ⟨s, rfl, hc, rfl, h0⟩
  | succ n ih =>
    obtain ⟨sn, e1, e2, e3, e4⟩ := ih
    obtain ⟨_, _, s', -, -, g3, g4, -, -, -, -, -, g10, -, -, -, -, -, -, g17, -⟩ :=
      PSG_Cycle_fields sn e2
    have hcount : noiseClockCount (n + 1) s =
        noiseClockCount n s + (if noiseClocked sn then 1 else 0) := by
      simp only [noiseClockCount, e1]
    refine ⟨s', ?_, ?_, g17.trans e3, ?_⟩
    · rw [PSG_Cycles_succ, e1]
      exact g3
    · rw [g4]
      omega
    · rw [g10, hcount, e4, e3]
      by_cases hclk : noiseClocked sn
      · rw [if_pos hclk, if_pos (show noiseUpdateNext sn &&& 0x03 = 0x01 from hclk)]
        exact noiseShift_oneHotAfter hty _
      · rw [if_neg hclk, if_neg (show ¬ noiseUpdateNext sn &&& 0x03 = 0x01 from hclk)]
        rfl

/-- C20: when bit 1 of `noise_type` is clear, a qualifying noise clock in `PSG_Cycle` maps
`noise = 0` to 1 and each one-hot value `1 << k` (`k <= 15`) to `1 << ((k + 1) mod 16)`.
Hence, on consecutive calls from a state with `noise = 0`, after `q` qualifying clocks the
register holds `oneHotAfter q`: it is one-hot from the first clock on, two values are equal
exactly when the clock counts agree modulo 16 (period exactly 16), and bit 14, the output bit,
is set exactly when the count is 15 modulo 16, one clock in every 16. -/
theorem periodic_noise (s : psg_t) (hty : s.noise_type &&& 0x02 = 0) (hc : s.cycle ≤ 3) :
    (noiseClocked s → ∃ s', PSG_Cycle s = some s' ∧ (s.noise = 0 → s'.noise = 1) ∧
      ∀ k, k ≤ 15 → s.noise = 1 <<< k → s'.noise = 1 <<< ((k + 1) % 16)) ∧
    (s.noise = 0 → ∀ n, ∃ sn, PSG_Cycles n s = some sn ∧
      sn.noise = oneHotAfter (noiseClockCount n s) ∧
      (1 ≤ noiseClockCount n s →
        (∃ k, k ≤ 15 ∧ sn.noise = 1 <<< k) ∧
        (sn.noise.testBit 14 = true ↔ noiseClockCount n s % 16 = 15) ∧
        ∀ n' sn', PSG_Cycles n' s = some sn' → 1 ≤ noiseClockCount n' s →
          (sn'.noise = sn.noise ↔ noiseClockCount n' s % 16 = noiseClockCount n s % 16))) := by
  refine ⟨fun hclk => ?_, fun h0 n => ?_⟩
  · obtain ⟨_, _, s', -, -, g3, -, -, -, -, -, -, g10, -⟩ := PSG_Cycle_fields s hc
    obtain ⟨p0, pk⟩ := noiseShift_periodic hty
    rw [if_pos (show noiseUpdateNext s &&& 0x03 = 0x01 from hclk)] at g10
    refine ⟨s', g3, fun h0 => ?_, fun k hk hs => ?_⟩
    · rw [g10, h0, p0]
    · rw [g10, hs, pk k hk]
  · obtain ⟨sn, e1, -, -, e4⟩ := noise_trajectory s hty hc h0 n
    refine ⟨sn, e1, e4, fun hq => ?_⟩
    obtain ⟨f1, f2, f3⟩ := oneHotAfter_facts _ hq
    rw [e4]
    refine ⟨f1, f3, fun n' sn' e1' hq' => ?_⟩
    obtain ⟨t, d1, -, -, d4⟩ := noise_trajectory s hty hc h0 n'
    rw [e1'] at d1
    obtain rfl := Option.some.inj d1
    rw [d4]
    exact f2 _ hq'

/-- The witness of C20: a qualifying clock on the state `psg_t.playing` with the tapped sign
bit 3 set rotates `noise = 1 << 14`; and the reset state (`noise = 0`, `noise_type = 0`) over
its first 21 calls. -/
theorem periodic_noise_witness :
    ((({ psg_t.playing with sign := 8 } : psg_t).noise_type &&& 0x02 = 0 ∧
      ({ psg_t.playing with sign := 8 } : psg_t).cycle ≤ 3 ∧
      noiseClocked { psg_t.playing with sign := 8 }) ∧
     ((PSG_Reset psg_t.zero).noise_type &&& 0x02 = 0 ∧ (PSG_Reset psg_t.zero).cycle ≤ 3 ∧
      (PSG_Reset psg_t.zero).noise = 0)) ∧
    (∃ s', PSG_Cycle { psg_t.playing with sign := 8 } = some s' ∧
      (({ psg_t.playing with sign := 8 } : psg_t).noise = 0 → s'.noise = 1) ∧
      ∀ k, k ≤ 15 → ({ psg_t.playing with sign := 8 } : psg_t).noise = 1 <<< k →
        s'.noise = 1 <<< ((k + 1) % 16)) ∧
    ∃ sn, PSG_Cycles 21 (PSG_Reset psg_t.zero) = some sn ∧
      sn.noise = oneHotAfter (noiseClockCount 21 (PSG_Reset psg_t.zero)) :=
  ⟨by decide,
    (periodic_noise { psg_t.playing with sign := 8 } (by decide) (by decide)).1 (by decide),
    ((periodic_noise (PSG_Reset psg_t.zero) (by decide) (by decide)).2 rfl 21).imp
      fun _ h => ⟨h.1, h.2.1⟩⟩

end YM7101
